import Mathlib

/-!
Verification of the navtool geometry simplification and encoding pipeline.

The Python tools under `tools/` are embedded shallowly: coordinates are
rationals (the exact-real semantics of the float arithmetic in the source),
distances are compared through their squares (`d₁ < d₂ ↔ d₁² < d₂²` for
non-negative reals, so the branch structure of the source is preserved
exactly), and code that can raise an exception is modelled in `Option`.
The recursive core of Douglas-Peucker is embedded with a fuel parameter;
`fuel = length` always suffices (proved below), so the wrapper
`simpSeg` computes exactly the recursion of the source.
-/

abbrev Pt : Type := ℚ × ℚ

/-- Squared perpendicular distance from point `p` to the segment `s`–`e`,
embedding `_perpendicular_distance` of `tools/download_enc_direct.py`
(lines 721-730): the projection parameter is clamped to `[0,1]`, and a
degenerate segment (`s = e`) falls back to the distance to `s`.
The square of the source's value is returned, so every comparison between
distances or against a positive tolerance is preserved. -/
def perpDistSq (p s e : Pt) : ℚ :=
  if (e.1 - s.1) ^ 2 + (e.2 - s.2) ^ 2 = 0 then
    (p.1 - s.1) ^ 2 + (p.2 - s.2) ^ 2
  else
    let u := max 0 (min 1 (((p.1 - s.1) * (e.1 - s.1) + (p.2 - s.2) * (e.2 - s.2)) /
      ((e.1 - s.1) ^ 2 + (e.2 - s.2) ^ 2)))
    (p.1 - (s.1 + u * (e.1 - s.1))) ^ 2 + (p.2 - (s.2 + u * (e.2 - s.2))) ^ 2

/-- The scan `for i in range(1, len(segment)-1)` of `_simplify` in
`douglas_peucker`: walk the interior points keeping the first point of
maximal (squared) distance to the chord; `acc` starts at `(-1, 0)` as in
the source. -/
def maxFold (s e : Pt) : List Pt → Nat → ℚ × Nat → ℚ × Nat
  | [], _, acc => acc
  | p :: rest, i, acc =>
      if acc.1 < perpDistSq p s e then maxFold s e rest (i + 1) (perpDistSq p s e, i)
      else maxFold s e rest (i + 1) acc

/-- Maximal squared interior distance and its index for a segment of at
least two points (`start = segment[0]`, `end = segment[-1]`). -/
def dpFind : List Pt → ℚ × Nat
  | p :: q :: rest => maxFold p ((q :: rest).getLastD q) ((q :: rest).dropLast) 1 (-1, 0)
  | _ => (-1, 0)

/-- Fuelled embedding of `_simplify` inside `douglas_peucker`
(`tools/download_enc_direct.py`, lines 741-755): if the maximal interior
(squared) distance exceeds the (squared) tolerance, recurse on
`segment[: index+1]` and `segment[index:]` and concatenate sharing the
split point once, otherwise collapse to `[start, end]`.  Fuel at least
the length of the segment is always enough (`simpSegF_fuel` below). -/
def simpSegF : Nat → ℚ → List Pt → List Pt
  | 0, _, seg => seg
  | _ + 1, _, [] => []
  | _ + 1, _, [p] => [p]
  | fuel + 1, t2, p :: q :: rest =>
      if t2 < (dpFind (p :: q :: rest)).1 then
        (simpSegF fuel t2 ((p :: q :: rest).take ((dpFind (p :: q :: rest)).2 + 1))).dropLast
          ++ simpSegF fuel t2 ((p :: q :: rest).drop (dpFind (p :: q :: rest)).2)
      else [p, (q :: rest).getLastD q]

/-- `_simplify` with the canonical sufficient fuel. -/
def simpSeg (t2 : ℚ) (seg : List Pt) : List Pt := simpSegF seg.length t2 seg

/-- Embedding of `douglas_peucker` (`tools/download_enc_direct.py`,
lines 733-761; byte-identical copy in `tools/download_noaa_data.py`):
short inputs and non-positive tolerances are returned unchanged, a closed
ring is simplified without its closing duplicate and re-closed at the end.
The tolerance is compared squared (`tolerance ^ 2`), preserving the
source's comparisons of non-negative distances against `tolerance > 0`. -/
def douglas_peucker (points : List Pt) (tolerance : ℚ) : List Pt :=
  if points.length ≤ 2 ∨ tolerance ≤ 0 then points
  else
    let working := if points.head? = points.getLast? then points.dropLast else points
    let simplified := simpSeg (tolerance ^ 2) working
    if points.head? = points.getLast? then
      if simplified.head? = simplified.getLast? then simplified
      else simplified ++ simplified.take 1
    else simplified

/-- GeoJSON geometry of a feature, resolved once from the stringly typed
`geometry["type"]` dispatch of the source; `other` stands for any
geometry type none of the branches of the source handles (it is passed
through by the simplifier and skipped by the encoders). -/
inductive Geometry
  | polygon (rings : List (List Pt))
  | lineString (coords : List Pt)
  | multiPolygon (polys : List (List (List Pt)))
  | multiLineString (lines : List (List Pt))
  | other
deriving DecidableEq

/-- A GeoJSON feature: an opaque property bag plus a geometry. -/
structure Feature where
  properties : List (String × String)
  geometry : Geometry
deriving DecidableEq

/-- A GeoJSON FeatureCollection. -/
structure FeatureCollection where
  features : List Feature
deriving DecidableEq

/-- The rings of a Polygon or MultiPolygon feature (empty for every other
geometry type). -/
def featureRings (f : Feature) : List (List Pt) :=
  match f.geometry with
  | .polygon rings => rings
  | .multiPolygon polys => polys.flatten
  | _ => []

/-- A ring with an existing first point equal to its last point. -/
def ClosedRing (r : List Pt) : Prop := r ≠ [] ∧ r.head? = r.getLast?

/-- The closure step `if simplified[0] != simplified[-1]:
simplified.append(simplified[0])` of `simplify_geojson`; indexing an
empty list raises in the source, hence `none` there. -/
def closeRing? : List Pt → Option (List Pt)
  | [] => none
  | h :: t => some (if (h :: t).getLast? = some h then h :: t else (h :: t) ++ [h])

/-- Per-ring transform of the Polygon branch of `simplify_geojson`
(`tools/download_enc_direct.py`, lines 776-782): simplify, fall back to
the original ring when fewer than 4 points remain, then close. -/
def simplifyRingP (tol : ℚ) (ring : List Pt) : Option (List Pt) :=
  closeRing? (if (douglas_peucker ring tol).length < 4 then ring else douglas_peucker ring tol)

/-- Per-ring transform of the MultiPolygon branch of `simplify_geojson`
(lines 804-809): rings simplified below 4 points are dropped (`none`),
kept rings are closed. -/
def simplifyRingMP (tol : ℚ) (ring : List Pt) : Option (List Pt) :=
  if 4 ≤ (douglas_peucker ring tol).length then closeRing? (douglas_peucker ring tol) else none

/-- Effectful map over a list in the `Option` monad, in source order. -/
def optMapM (f : α → Option β) : List α → Option (List β)
  | [] => some []
  | x :: xs =>
      match f x, optMapM f xs with
      | some y, some ys => some (y :: ys)
      | _, _ => none

/-- One feature of `simplify_geojson` (`tools/download_enc_direct.py`,
lines 770-819): Polygon rings get the fallback-and-close treatment,
LineStrings shorter than 2 points after simplification are dropped,
MultiPolygon rings below 4 points are dropped together with emptied
polygons and features, anything else passes through unchanged.  The
result is the list of features this feature contributes to the output. -/
def simpFeature (tol : ℚ) (f : Feature) : Option (List Feature) :=
  match f.geometry with
  | .polygon rings =>
      (optMapM (simplifyRingP tol) rings).map
        (fun newCoords => [⟨f.properties, .polygon newCoords⟩])
  | .lineString coords =>
      some (if 2 ≤ (douglas_peucker coords tol).length then
              [⟨f.properties, .lineString (douglas_peucker coords tol)⟩]
            else [])
  | .multiPolygon polys =>
      some (
        let newMulti := polys.filterMap (fun poly =>
          let newPoly := poly.filterMap (simplifyRingMP tol)
          if newPoly.isEmpty then none else some newPoly)
        if newMulti.isEmpty then [] else [⟨f.properties, .multiPolygon newMulti⟩])
  | _ => some [f]

/-- Embedding of `simplify_geojson` (`tools/download_enc_direct.py`,
lines 764-821): identity for `tolerance <= 0`, otherwise the per-feature
transform over the collection; `none` models the `IndexError` the source
raises when a Polygon feature carries an empty ring. -/
def simplify_geojson (g : FeatureCollection) (tol : ℚ) : Option FeatureCollection :=
  if tol ≤ 0 then some g
  else (optMapM (simpFeature tol) g.features).map (fun fss => ⟨fss.flatten⟩)

/-- `min` of a non-empty list, as Python's `min(...)`; the `[]` case is
unreachable in every use below. -/
def listMin : List ℚ → ℚ
  | [] => 0
  | h :: t => t.foldl min h

/-- `max` of a non-empty list, as Python's `max(...)`. -/
def listMax : List ℚ → ℚ
  | [] => 0
  | h :: t => t.foldl max h

/-- `max_lon - min_lon` of an exterior ring. -/
def bboxW (ext : List Pt) : ℚ := listMax (ext.map Prod.fst) - listMin (ext.map Prod.fst)

/-- `max_lat - min_lat` of an exterior ring. -/
def bboxH (ext : List Pt) : ℚ := listMax (ext.map Prod.snd) - listMin (ext.map Prod.snd)

/-- Shoelace area of the ring excluding the closing duplicate
(`is_rectangular_feature`, lines 371-377). -/
def shoelaceArea (ext : List Pt) : ℚ :=
  |((List.range (ext.length - 1)).map (fun i =>
      (ext.getD i (0, 0)).1 * (ext.getD ((i + 1) % (ext.length - 1)) (0, 0)).2 -
      (ext.getD ((i + 1) % (ext.length - 1)) (0, 0)).1 * (ext.getD i (0, 0)).2)).sum| / 2

/-- `polygon_area / bbox_area if bbox_area > 0 else 0`. -/
def area_ratio (ext : List Pt) : ℚ :=
  if 0 < bboxW ext * bboxH ext then shoelaceArea ext / (bboxW ext * bboxH ext) else 0

/-- Number of the first four edges that are axis-aligned within `tol`
(`is_rectangular_feature`, lines 388-395). -/
def axisAlignedCount (ext : List Pt) (tol : ℚ) : Nat :=
  (List.range 4).countP (fun i =>
    decide (|(ext.getD i (0, 0)).1 - (ext.getD (i + 1) (0, 0)).1| < tol) ||
    decide (|(ext.getD i (0, 0)).2 - (ext.getD (i + 1) (0, 0)).2| < tol))

/-- Embedding of `is_rectangular_feature` (`tools/download_enc_direct.py`,
lines 333-399): candidates are Polygon exteriors of 4-10 points; tiny
bounding boxes are rejected; an area-to-bounding-box ratio above 0.95
classifies as artifact; a 5-point ring with four axis-aligned edges also
classifies as artifact. -/
def is_rectangular_feature (f : Feature) (tolerance : ℚ) : Bool :=
  match f.geometry with
  | .polygon [] => false
  | .polygon (exterior :: _) =>
      if exterior.length < 4 ∨ 10 < exterior.length then false
      else if bboxW exterior < 1 / 10000 ∨ bboxH exterior < 1 / 10000 then false
      else if 19 / 20 < area_ratio exterior then true
      else if exterior.length = 5 then
        if axisAlignedCount exterior tolerance = 4 then true else false
      else false
  | _ => false

/-- Extended float value written to an NVTL buffer: a finite coordinate,
or one of the infinities used as the initial bounds accumulators. -/
inductive XF
  | fin (q : ℚ)
  | pinf
  | ninf
deriving DecidableEq

/-- `min(acc, q)` where `acc` may be an infinity. -/
def xmin : XF → ℚ → XF
  | .pinf, q => .fin q
  | .ninf, _ => .ninf
  | .fin r, q => .fin (min r q)

/-- `max(acc, q)` where `acc` may be an infinity. -/
def xmax : XF → ℚ → XF
  | .ninf, q => .fin q
  | .pinf, _ => .pinf
  | .fin r, q => .fin (max r q)

/-- Bounds accumulator `(min_lon, min_lat, max_lon, max_lat)`. -/
structure Bnds where
  minLon : XF
  minLat : XF
  maxLon : XF
  maxLat : XF
deriving DecidableEq

/-- Update the bounds over the points of one exterior ring. -/
def updB (b : Bnds) (pts : List Pt) : Bnds :=
  pts.foldl (fun b p => ⟨xmin b.minLon p.1, xmin b.minLat p.2, xmax b.maxLon p.1, xmax b.maxLat p.2⟩) b

/-- `float('inf')` initial accumulators of `geojson_to_binary`. -/
def initB : Bnds := ⟨.pinf, .pinf, .ninf, .ninf⟩

/-- Zeroed bounds emitted for an empty polygon list. -/
def zeroB : Bnds := ⟨.fin 0, .fin 0, .fin 0, .fin 0⟩

/-- One field written to an NVTL buffer; each constructor serializes to a
fixed little-endian byte pattern (`b"NVTL"`, `<H`, `<I`, `<d`), so equal
field sequences mean equal byte sequences and `f64` fields are
value-injective. -/
inductive BinTok
  | magic
  | u16 (n : Nat)
  | u32 (n : Nat)
  | f64 (x : XF)
deriving DecidableEq

/-- A polygon collected by the encoders: exterior ring plus interiors. -/
abbrev EncPoly : Type := List Pt × List (List Pt)

/-- `if points[0] != points[-1]: points.append(points[0])` on a list known
non-empty at the call sites (the MultiLineString branch guards `len >= 2`). -/
def closeOpen : List Pt → List Pt
  | [] => []
  | h :: t => if (h :: t).getLast? = some h then h :: t else (h :: t) ++ [h]

/-- Polygon/MultiPolygon collection step shared verbatim by the encoders of
`tools/download_noaa_data.py` (lines 316-343) and `tools/download_gshhg.py`
(lines 188-218): polygons with an empty coordinate list are skipped, bounds
are scanned over exterior points only. -/
def stepPM (acc : List EncPoly × Bnds) (f : Feature) : List EncPoly × Bnds :=
  match f.geometry with
  | .polygon [] => acc
  | .polygon (ext :: ints) => (acc.1 ++ [(ext, ints)], updB acc.2 ext)
  | .multiPolygon polys =>
      polys.foldl (fun a pc =>
        match pc with
        | [] => a
        | ext :: ints => (a.1 ++ [(ext, ints)], updB a.2 ext)) acc
  | _ => acc

/-- Collection step of the encoder in `tools/download_enc_direct.py`
(lines 633-683): as `stepPM`, plus LineStrings are skipped explicitly and
MultiLineStrings of at least 2 points become closed hole-free polygons. -/
def stepEnc (acc : List EncPoly × Bnds) (f : Feature) : List EncPoly × Bnds :=
  match f.geometry with
  | .polygon [] => acc
  | .polygon (ext :: ints) => (acc.1 ++ [(ext, ints)], updB acc.2 ext)
  | .multiPolygon polys =>
      polys.foldl (fun a pc =>
        match pc with
        | [] => a
        | ext :: ints => (a.1 ++ [(ext, ints)], updB a.2 ext)) acc
  | .lineString _ => acc
  | .multiLineString lines =>
      lines.foldl (fun a lc =>
        if 2 ≤ lc.length then (a.1 ++ [(closeOpen lc, [])], updB a.2 lc) else a) acc
  | .other => acc

/-- The coordinate pairs of one ring as buffer fields. -/
def encodeRing (r : List Pt) : List BinTok :=
  (r.map (fun p => [BinTok.f64 (.fin p.1), BinTok.f64 (.fin p.2)])).flatten

/-- One polygon record: exterior point count, interior ring count,
exterior points, then each interior ring prefixed by its point count. -/
def encodePoly (pl : EncPoly) : List BinTok :=
  [BinTok.u32 pl.1.length, BinTok.u32 pl.2.length] ++ encodeRing pl.1 ++
    (pl.2.map (fun r => BinTok.u32 r.length :: encodeRing r)).flatten

/-- NVTL header: magic, version 1, polygon count, four bounds fields. -/
def encodeHeader (n : Nat) (b : Bnds) : List BinTok :=
  [.magic, .u16 1, .u32 n, .f64 b.minLon, .f64 b.minLat, .f64 b.maxLon, .f64 b.maxLat]

/-- The polygons collected by the shared Polygon/MultiPolygon scan. -/
def polysPM (g : FeatureCollection) : List EncPoly :=
  (g.features.foldl stepPM ([], initB)).1

/-- Embedding of `geojson_to_binary` of `tools/download_noaa_data.py`
(lines 293-374): no handling of an empty polygon list, so the bounds
fields keep their `float('inf')` initial values there. -/
def geojson_to_binary_noaa (g : FeatureCollection) : List BinTok :=
  encodeHeader (polysPM g).length (g.features.foldl stepPM ([], initB)).2 ++
    ((polysPM g).map encodePoly).flatten

/-- Embedding of `geojson_to_binary` of `tools/download_gshhg.py`
(lines 180-253): as the noaa variant plus `if not polygons:` zeroing of
the bounds. -/
def geojson_to_binary_gshhg (g : FeatureCollection) : List BinTok :=
  encodeHeader (polysPM g).length
      (if (polysPM g).isEmpty then zeroB else (g.features.foldl stepPM ([], initB)).2) ++
    ((polysPM g).map encodePoly).flatten

/-- Embedding of `geojson_to_binary` of `tools/download_enc_direct.py`
(lines 610-718): LineString/MultiLineString branches plus `if not
polygons:` zeroing of the bounds. -/
def geojson_to_binary_enc (g : FeatureCollection) : List BinTok :=
  encodeHeader (g.features.foldl stepEnc ([], initB)).1.length
      (if (g.features.foldl stepEnc ([], initB)).1.isEmpty then zeroB
       else (g.features.foldl stepEnc ([], initB)).2) ++
    ((g.features.foldl stepEnc ([], initB)).1.map encodePoly).flatten

/-- `True` exactly for the geometry types the Polygon Merger collects. -/
def isPM : Geometry → Bool
  | .polygon _ => true
  | .multiPolygon _ => true
  | _ => false

/-- A shapely geometry as it comes back from `unary_union`, abstracted:
the converter in `merge_land_polygons` only inspects `geom_type` and maps
Polygon / MultiPolygon components back to GeoJSON. -/
inductive ShapelyOut
  | polygon (rings : List (List Pt))
  | multiPolygon (polys : List (List (List Pt)))
  | collection (parts : List ShapelyOut)
  | otherGeom

/-- `mapping(...)` of a Polygon or MultiPolygon shapely object; `none`
for components of other dimension, which the converter drops. -/
def shapelyToGeometry : ShapelyOut → Option Geometry
  | .polygon rings => some (.polygon rings)
  | .multiPolygon polys => some (.multiPolygon polys)
  | _ => none

/-- The property bag `{"merged": True}` attached to merged features. -/
def mergedProps : List (String × String) := [("merged", "true")]

/-- The `geom_type` dispatch over the union result in
`merge_land_polygons` (lines 445-465). -/
def convertMerged : ShapelyOut → List Feature
  | .polygon rings => [⟨mergedProps, .polygon rings⟩]
  | .multiPolygon polys => polys.map (fun p => ⟨mergedProps, .polygon p⟩)
  | .collection parts =>
      parts.filterMap (fun g => (shapelyToGeometry g).map (fun gg => ⟨mergedProps, gg⟩))
  | .otherGeom => []

/-- The parse loop of `merge_land_polygons` (lines 416-430): every
Polygon/MultiPolygon feature is parsed and validity-repaired by the
geometry engine; `parse` returns `none` both for an engine exception and
for a geometry left empty/invalid after repair, in which case the feature
is skipped with a warning. -/
def extractMergePolys {GObj : Type} (parse : Geometry → Option GObj)
    (features : List Feature) : List GObj :=
  features.filterMap (fun f => if isPM f.geometry then parse f.geometry else none)

/-- Embedding of `merge_land_polygons` (`tools/download_enc_direct.py`,
lines 402-475), parameterized over the external geometry engine: `parse`
models `shape` plus `make_valid` plus the validity/emptiness check, and
`union` models `unary_union` together with everything else that can raise
inside the `try` block; an `Except.error` is the exception path, on which
the original feature list is returned unchanged. -/
def merge_land_polygons {GObj : Type} (parse : Geometry → Option GObj)
    (union : List GObj → Except String ShapelyOut) (features : List Feature) : List Feature :=
  let polygons := extractMergePolys parse features
  let other_features := features.filter (fun f => !(isPM f.geometry))
  if polygons.isEmpty then features
  else
    match union polygons with
    | .ok merged => convertMerged merged ++ other_features
    | .error _ => features

/-- Decoder error taxonomy of the spec: a magic/version mismatch is
distinct from a truncated/corrupt buffer. -/
inductive DecodeError
  | notNVTL
  | truncated
deriving DecidableEq

/-- The ASCII bytes `"NVTL"`. -/
def MAGIC : List Nat := [78, 86, 84, 76]

/-- Little-endian value of a byte list. -/
def leVal (l : List Nat) : Nat := l.foldr (fun x acc => x + 256 * acc) 0

/-- Read `n` bytes from the front of a buffer; shortness is a truncation. -/
def readN (n : Nat) (b : List Nat) : Except DecodeError (List Nat × List Nat) :=
  if b.length < n then .error .truncated else .ok (b.take n, b.drop n)

/-- Read one interior ring: uint32 point count then that many 16-byte
coordinate pairs. -/
def readRing (b : List Nat) : Except DecodeError (List Nat × List Nat) :=
  match readN 4 b with
  | .error e => .error e
  | .ok (cb, r) =>
      match readN (16 * leVal cb) r with
      | .error e => .error e
      | .ok (pts, r') => .ok (pts, r')

/-- Read `n` interior rings. -/
def readRings : Nat → List Nat → Except DecodeError (List (List Nat) × List Nat)
  | 0, b => .ok ([], b)
  | n + 1, b =>
      match readRing b with
      | .error e => .error e
      | .ok (ring, r) =>
          match readRings n r with
          | .error e => .error e
          | .ok (rs, r') => .ok (ring :: rs, r')

/-- Read one polygon record: exterior point count, interior ring count,
exterior points, interior rings. -/
def readPoly (b : List Nat) : Except DecodeError ((List Nat × List (List Nat)) × List Nat) :=
  match readN 4 b with
  | .error e => .error e
  | .ok (eb, r1) =>
      match readN 4 r1 with
      | .error e => .error e
      | .ok (hb, r2) =>
          match readN (16 * leVal eb) r2 with
          | .error e => .error e
          | .ok (ept, r3) =>
              match readRings (leVal hb) r3 with
              | .error e => .error e
              | .ok (ints, r4) => .ok ((ept, ints), r4)

/-- Read `n` polygon records. -/
def readPolys : Nat → List Nat → Except DecodeError (List (List Nat × List (List Nat)) × List Nat)
  | 0, b => .ok ([], b)
  | n + 1, b =>
      match readPoly b with
      | .error e => .error e
      | .ok (p, r) =>
          match readPolys n r with
          | .error e => .error e
          | .ok (ps, r') => .ok (p :: ps, r')

/-- A decoded NVTL buffer: polygon count, raw bounds bytes, polygons. -/
structure NVTLData where
  count : Nat
  boundsBytes : List Nat
  polys : List (List Nat × List (List Nat))

/-- Modelled from the spec: the NVTL decoder (the renderer-side consumer
of section 6, not part of the tools under `tools/`).  It reads the magic,
version, polygon count and bounds, then the declared polygon records;
a wrong magic or version is `notNVTL`, running out of bytes anywhere is
`truncated`. -/
def decode (buf : List Nat) : Except DecodeError NVTLData :=
  match readN 4 buf with
  | .error e => .error e
  | .ok (m, r1) =>
      if m ≠ MAGIC then .error .notNVTL
      else
        match readN 2 r1 with
        | .error e => .error e
        | .ok (v, r2) =>
            if leVal v ≠ 1 then .error .notNVTL
            else
              match readN 4 r2 with
              | .error e => .error e
              | .ok (c, r3) =>
                  match readN 32 r3 with
                  | .error e => .error e
                  | .ok (bnds, r4) =>
                      match readPolys (leVal c) r4 with
                      | .error e => .error e
                      | .ok (ps, _) => .ok ⟨leVal c, bnds, ps⟩

/-- The buffer starts with readable magic/version bytes and at least one
of the two disagrees with the format. -/
def badMagicVersion (buf : List Nat) : Prop :=
  (4 ≤ buf.length ∧ buf.take 4 ≠ MAGIC) ∨
  (buf.take 4 = MAGIC ∧ 6 ≤ buf.length ∧ leVal ((buf.drop 4).take 2) ≠ 1)

/-- Point `x` is within squared distance `t2` of some segment of the
polyline `l` (consecutive points of `l`). -/
def NearPt (t2 : ℚ) (l : List Pt) (x : Pt) : Prop :=
  ∃ i a b, l[i]? = some a ∧ l[i + 1]? = some b ∧ perpDistSq x a b ≤ t2

theorem head?_take_pos {α : Type} (l : List α) (n : Nat) (hn : 0 < n) :
    (l.take n).head? = l.head? := by
  cases l with
  | nil => simp
  | cons a t => cases n with
    | zero => omega
    | succ m => simp

theorem getLast?_take_eq {α : Type} (l : List α) (n : Nat) (h1 : 1 ≤ n) (h2 : n ≤ l.length) :
    (l.take n).getLast? = l[n - 1]? := by
  rw [List.getLast?_eq_getElem?, List.length_take_of_le h2, List.getElem?_take_of_lt (by omega)]

theorem head?_drop_eq {α : Type} (l : List α) (n : Nat) : (l.drop n).head? = l[n]? := by
  rw [List.head?_eq_getElem?, List.getElem?_drop, Nat.add_zero]

theorem getLast?_drop_eq {α : Type} (l : List α) (n : Nat) (h : n < l.length) :
    (l.drop n).getLast? = l.getLast? := by
  rw [List.getLast?_eq_getElem?, List.getLast?_eq_getElem?, List.getElem?_drop,
    List.length_drop]
  congr 1
  omega

theorem head?_dropLast_eq {α : Type} (l : List α) (h : 2 ≤ l.length) :
    l.dropLast.head? = l.head? := by
  cases l with
  | nil => simp at h
  | cons a t => cases t with
    | nil => simp at h
    | cons b t' => simp

theorem head?_append_of_ne_nil {α : Type} (l r : List α) (h : l ≠ []) :
    (l ++ r).head? = l.head? := by
  cases l with
  | nil => exact absurd rfl h
  | cons a t => rfl

theorem getLastD_cons_mem {α : Type} (q : α) (rest : List α) :
    (q :: rest).getLastD q ∈ q :: rest := by
  induction rest generalizing q with
  | nil => simp
  | cons b t ih =>
      have h1 : (q :: b :: t).getLastD q = (b :: t).getLastD b := rfl
      rw [h1]
      exact List.mem_cons_of_mem q (ih b)

theorem getLast?_cons_eq_getLastD {α : Type} (q : α) (rest : List α) :
    (q :: rest).getLast? = some ((q :: rest).getLastD q) := by
  induction rest generalizing q with
  | nil => rfl
  | cons b t ih => simpa [List.getLast?_cons_cons, List.getLastD] using ih b

theorem dropLast_append_getLastD {α : Type} (q : α) (rest : List α) :
    (q :: rest).dropLast ++ [(q :: rest).getLastD q] = q :: rest := by
  have h := List.dropLast_append_getLast (l := q :: rest) (by simp)
  have h2 : (q :: rest).getLast (by simp) = (q :: rest).getLastD q := by
    have := getLast?_cons_eq_getLastD q rest
    rw [List.getLast?_eq_getLast _ (by simp)] at this
    exact Option.some_injective _ this
  rw [← h2]
  exact h

theorem perpDistSq_nonneg (p s e : Pt) : 0 ≤ perpDistSq p s e := by
  unfold perpDistSq
  split
  · positivity
  · positivity

theorem perpDistSq_self_left (s e : Pt) : perpDistSq s s e = 0 := by
  unfold perpDistSq
  split
  · simp
  · simp

theorem perpDistSq_self_right (s e : Pt) : perpDistSq e s e = 0 := by
  unfold perpDistSq
  split
  · next h => exact h
  · next h =>
      have hd : ((e.1 - s.1) * (e.1 - s.1) + (e.2 - s.2) * (e.2 - s.2)) /
          ((e.1 - s.1) ^ 2 + (e.2 - s.2) ^ 2) = 1 := by
        rw [show (e.1 - s.1) * (e.1 - s.1) + (e.2 - s.2) * (e.2 - s.2) =
          (e.1 - s.1) ^ 2 + (e.2 - s.2) ^ 2 by ring]
        exact div_self h
      rw [hd]
      norm_num

theorem maxFold_fst_le (s e : Pt) :
    ∀ (l : List Pt) (i : Nat) (acc : ℚ × Nat), acc.1 ≤ (maxFold s e l i acc).1 := by
  intro l
  induction l with
  | nil => intro i acc; simp [maxFold]
  | cons p rest ih =>
      intro i acc
      simp only [maxFold]
      split
      · next h => exact le_of_lt (lt_of_lt_of_le h (ih (i + 1) (perpDistSq p s e, i)))
      · exact ih (i + 1) acc

theorem maxFold_le_of_mem (s e : Pt) :
    ∀ (l : List Pt) (i : Nat) (acc : ℚ × Nat) (x : Pt), x ∈ l →
      perpDistSq x s e ≤ (maxFold s e l i acc).1 := by
  intro l
  induction l with
  | nil => intro i acc x hx; simp at hx
  | cons p rest ih =>
      intro i acc x hx
      rcases List.mem_cons.1 hx with h | h
      · subst h
        simp only [maxFold]
        split
        · next hlt => exact maxFold_fst_le s e rest (i + 1) (perpDistSq x s e, i)
        · next hlt =>
            exact le_trans (not_lt.1 hlt) (maxFold_fst_le s e rest (i + 1) acc)
      · simp only [maxFold]
        split
        · exact ih (i + 1) _ x h
        · exact ih (i + 1) acc x h

theorem maxFold_acc_or (s e : Pt) :
    ∀ (l : List Pt) (i : Nat) (acc : ℚ × Nat),
      maxFold s e l i acc = acc ∨
        (i ≤ (maxFold s e l i acc).2 ∧ (maxFold s e l i acc).2 < i + l.length) := by
  intro l
  induction l with
  | nil => intro i acc; left; rfl
  | cons p rest ih =>
      intro i acc
      simp only [maxFold]
      split
      · right
        rcases ih (i + 1) (perpDistSq p s e, i) with h | h
        · rw [h]; constructor
          · exact le_refl i
          · simp only [List.length_cons]
            omega
        · constructor
          · omega
          · have := h.2
            simp only [List.length_cons]
            omega
      · rcases ih (i + 1) acc with h | h
        · left; exact h
        · right
          constructor
          · omega
          · have := h.2
            simp only [List.length_cons]
            omega

theorem dpFind_le_of_mem (p q : Pt) (rest : List Pt) (x : Pt)
    (hx : x ∈ (q :: rest).dropLast) :
    perpDistSq x p ((q :: rest).getLastD q) ≤ (dpFind (p :: q :: rest)).1 := by
  simp only [dpFind]
  exact maxFold_le_of_mem _ _ _ 1 (-1, 0) x hx

theorem dpFind_bounds (p q : Pt) (rest : List Pt) (t2 : ℚ) (ht : 0 ≤ t2)
    (h : t2 < (dpFind (p :: q :: rest)).1) :
    1 ≤ (dpFind (p :: q :: rest)).2 ∧ (dpFind (p :: q :: rest)).2 + 2 ≤ (p :: q :: rest).length := by
  have hor := maxFold_acc_or p ((q :: rest).getLastD q) ((q :: rest).dropLast) 1 (-1, 0)
  simp only [dpFind] at h ⊢
  rcases hor with heq | hb
  · rw [heq] at h
    norm_num at h
    linarith
  · have hlen : ((q :: rest).dropLast).length = rest.length := by
      simp [List.length_dropLast]
    constructor
    · exact hb.1
    · have := hb.2
      rw [hlen] at this
      simp only [List.length_cons]
      omega

theorem simpSegF_shape :
    ∀ (fuel : Nat) (t2 : ℚ) (seg : List Pt), 0 ≤ t2 → 2 ≤ seg.length → seg.length ≤ fuel →
      (simpSegF fuel t2 seg).head? = seg.head? ∧
      (simpSegF fuel t2 seg).getLast? = seg.getLast? ∧
      2 ≤ (simpSegF fuel t2 seg).length ∧ (simpSegF fuel t2 seg).length ≤ seg.length := by
  intro fuel
  induction fuel with
  | zero => intro t2 seg ht h2 hf; omega
  | succ fuel ih =>
      intro t2 seg ht h2 hf
      cases seg with
      | nil => simp at h2
      | cons p t =>
          cases t with
          | nil => simp at h2
          | cons q rest =>
              simp only [simpSegF]
              by_cases hc : t2 < (dpFind (p :: q :: rest)).1
              · rw [if_pos hc]
                obtain ⟨hk1, hk2⟩ := dpFind_bounds p q rest t2 ht hc
                have hlen : (p :: q :: rest).length = rest.length + 2 := by simp
                have htl : ((p :: q :: rest).take ((dpFind (p :: q :: rest)).2 + 1)).length
                    = (dpFind (p :: q :: rest)).2 + 1 :=
                  List.length_take_of_le (by omega)
                have hdl : ((p :: q :: rest).drop ((dpFind (p :: q :: rest)).2)).length
                    = (p :: q :: rest).length - (dpFind (p :: q :: rest)).2 :=
                  List.length_drop _ _
                have ihL := ih t2 ((p :: q :: rest).take ((dpFind (p :: q :: rest)).2 + 1)) ht
                  (by omega) (by omega)
                have ihR := ih t2 ((p :: q :: rest).drop ((dpFind (p :: q :: rest)).2)) ht
                  (by omega) (by omega)
                obtain ⟨hLh, hLl, hL2, hLle⟩ := ihL
                obtain ⟨hRh, hRl, hR2, hRle⟩ := ihR
                have hdnil : (simpSegF fuel t2
                    ((p :: q :: rest).take ((dpFind (p :: q :: rest)).2 + 1))).dropLast ≠ [] := by
                  apply List.ne_nil_of_length_pos
                  rw [List.length_dropLast]
                  omega
                have hrnil : simpSegF fuel t2
                    ((p :: q :: rest).drop ((dpFind (p :: q :: rest)).2)) ≠ [] := by
                  apply List.ne_nil_of_length_pos
                  omega
                refine ⟨?_, ?_, ?_, ?_⟩
                · rw [head?_append_of_ne_nil _ _ hdnil, head?_dropLast_eq _ hL2, hLh,
                    head?_take_pos _ _ (by omega)]
                · rw [List.getLast?_append_of_ne_nil _ hrnil, hRl,
                    getLast?_drop_eq _ _ (by omega)]
                · rw [List.length_append, List.length_dropLast]
                  omega
                · rw [List.length_append, List.length_dropLast]
                  omega
              · rw [if_neg hc]
                refine ⟨rfl, ?_, by simp, by simp⟩
                have h1 : ([p, (q :: rest).getLastD q]).getLast?
                    = some ((q :: rest).getLastD q) := by simp
                have h2' : (p :: q :: rest).getLast? = some ((q :: rest).getLastD q) := by
                  rw [List.getLast?_cons_cons]
                  exact getLast?_cons_eq_getLastD q rest
                rw [h1, h2']

theorem simpSegF_subset :
    ∀ (fuel : Nat) (t2 : ℚ) (seg : List Pt), 0 ≤ t2 → seg.length ≤ fuel →
      ∀ x ∈ simpSegF fuel t2 seg, x ∈ seg := by
  intro fuel
  induction fuel with
  | zero =>
      intro t2 seg ht hf x hx
      simpa [simpSegF] using hx
  | succ fuel ih =>
      intro t2 seg ht hf x hx
      cases seg with
      | nil => simp [simpSegF] at hx
      | cons p t =>
          cases t with
          | nil => simpa [simpSegF] using hx
          | cons q rest =>
              simp only [simpSegF] at hx
              by_cases hc : t2 < (dpFind (p :: q :: rest)).1
              · rw [if_pos hc] at hx
                obtain ⟨hk1, hk2⟩ := dpFind_bounds p q rest t2 ht hc
                have htl : ((p :: q :: rest).take ((dpFind (p :: q :: rest)).2 + 1)).length
                    = (dpFind (p :: q :: rest)).2 + 1 :=
                  List.length_take_of_le (by simp only [List.length_cons] at hk2 ⊢; omega)
                rcases List.mem_append.1 hx with h | h
                · have hxl := ih t2 _ ht
                    (by simp only [List.length_cons] at hf hk2 ⊢; omega)
                    x (List.dropLast_subset _ h)
                  exact List.take_subset _ _ hxl
                · have hxr := ih t2 _ ht
                    (by rw [List.length_drop]; simp only [List.length_cons] at hf ⊢; omega) x h
                  exact List.drop_subset _ _ hxr
              · rw [if_neg hc] at hx
                rcases List.mem_cons.1 hx with h | h
                · subst h; exact List.mem_cons_self _ _
                · have : x = (q :: rest).getLastD q := by simpa using h
                  subst this
                  exact List.mem_cons_of_mem p (getLastD_cons_mem q rest)

theorem simpSegF_mono :
    ∀ (fuel : Nat) (t1 t2 : ℚ) (seg : List Pt), 0 ≤ t1 → t1 ≤ t2 →
      2 ≤ seg.length → seg.length ≤ fuel →
      (simpSegF fuel t2 seg).length ≤ (simpSegF fuel t1 seg).length := by
  intro fuel
  induction fuel with
  | zero => intro t1 t2 seg ht h12 h2 hf; omega
  | succ fuel ih =>
      intro t1 t2 seg ht h12 h2 hf
      have ht2 : 0 ≤ t2 := le_trans ht h12
      cases seg with
      | nil => simp at h2
      | cons p t =>
          cases t with
          | nil => simp at h2
          | cons q rest =>
              simp only [simpSegF]
              by_cases hc2 : t2 < (dpFind (p :: q :: rest)).1
              · have hc1 : t1 < (dpFind (p :: q :: rest)).1 := lt_of_le_of_lt h12 hc2
                rw [if_pos hc2, if_pos hc1]
                obtain ⟨hk1, hk2⟩ := dpFind_bounds p q rest t2 ht2 hc2
                have htl : ((p :: q :: rest).take ((dpFind (p :: q :: rest)).2 + 1)).length
                    = (dpFind (p :: q :: rest)).2 + 1 :=
                  List.length_take_of_le (by omega)
                have hdl : ((p :: q :: rest).drop ((dpFind (p :: q :: rest)).2)).length
                    = (p :: q :: rest).length - (dpFind (p :: q :: rest)).2 :=
                  List.length_drop _ _
                have h2L : 2 ≤ ((p :: q :: rest).take ((dpFind (p :: q :: rest)).2 + 1)).length := by
                  omega
                have hfL : ((p :: q :: rest).take ((dpFind (p :: q :: rest)).2 + 1)).length ≤ fuel := by
                  omega
                have h2R : 2 ≤ ((p :: q :: rest).drop ((dpFind (p :: q :: rest)).2)).length := by
                  omega
                have hfR : ((p :: q :: rest).drop ((dpFind (p :: q :: rest)).2)).length ≤ fuel := by
                  omega
                have ihL := ih t1 t2 _ ht h12 h2L hfL
                have ihR := ih t1 t2 _ ht h12 h2R hfR
                have sL1 := simpSegF_shape fuel t1 _ ht h2L hfL
                have sL2 := simpSegF_shape fuel t2 _ ht2 h2L hfL
                rw [List.length_append, List.length_append, List.length_dropLast,
                  List.length_dropLast]
                omega
              · rw [if_neg hc2]
                by_cases hc1 : t1 < (dpFind (p :: q :: rest)).1
                · rw [if_pos hc1]
                  obtain ⟨hk1, hk2⟩ := dpFind_bounds p q rest t1 ht hc1
                  have htl : ((p :: q :: rest).take ((dpFind (p :: q :: rest)).2 + 1)).length
                      = (dpFind (p :: q :: rest)).2 + 1 :=
                    List.length_take_of_le (by omega)
                  have hdl : ((p :: q :: rest).drop ((dpFind (p :: q :: rest)).2)).length
                      = (p :: q :: rest).length - (dpFind (p :: q :: rest)).2 :=
                    List.length_drop _ _
                  have sL := simpSegF_shape fuel t1
                    ((p :: q :: rest).take ((dpFind (p :: q :: rest)).2 + 1)) ht
                    (by omega) (by omega)
                  have sR := simpSegF_shape fuel t1
                    ((p :: q :: rest).drop ((dpFind (p :: q :: rest)).2)) ht (by omega) (by omega)
                  rw [List.length_append, List.length_dropLast]
                  simp only [List.length_cons, List.length_nil] at *
                  omega
                · rw [if_neg hc1]

theorem getElem?_some_lt {α : Type} {l : List α} {i : Nat} {a : α} (h : l[i]? = some a) :
    i < l.length := by
  by_contra hc
  rw [List.getElem?_eq_none (by omega)] at h
  exact absurd h (by simp)

theorem nearPt_append (t2 : ℚ) (l r : List Pt) (x : Pt) (h : NearPt t2 l x) :
    NearPt t2 (l ++ r) x := by
  obtain ⟨i, a, b, ha, hb, hd⟩ := h
  have hi1 : i + 1 < l.length := getElem?_some_lt hb
  exact ⟨i, a, b, by rw [List.getElem?_append_left (by omega)]; exact ha,
    by rw [List.getElem?_append_left hi1]; exact hb, hd⟩

theorem nearPt_shift (t2 : ℚ) (l r : List Pt) (x : Pt) (h : NearPt t2 r x) :
    NearPt t2 (l ++ r) x := by
  obtain ⟨i, a, b, ha, hb, hd⟩ := h
  refine ⟨l.length + i, a, b, ?_, ?_, hd⟩
  · rw [List.getElem?_append_right (by omega), Nat.add_sub_cancel_left]
    exact ha
  · rw [List.getElem?_append_right (by omega)]
    have he : l.length + i + 1 - l.length = i + 1 := by omega
    rw [he]
    exact hb

theorem nearPt_glue (t2 : ℚ) (A B : List Pt) (x : Pt) (h : NearPt t2 A x)
    (hAB : A.getLast? = B.head?) : NearPt t2 (A.dropLast ++ B) x := by
  obtain ⟨i, a, b, ha, hb, hd⟩ := h
  have hi1 : i + 1 < A.length := getElem?_some_lt hb
  by_cases hcase : i + 1 < A.length - 1
  · refine ⟨i, a, b, ?_, ?_, hd⟩
    · rw [List.getElem?_append_left (by rw [List.length_dropLast]; omega),
        List.dropLast_eq_take, List.getElem?_take_of_lt (by omega)]
      exact ha
    · rw [List.getElem?_append_left (by rw [List.length_dropLast]; omega),
        List.dropLast_eq_take, List.getElem?_take_of_lt (by omega)]
      exact hb
  · have hieq : i + 1 = A.length - 1 := by omega
    refine ⟨i, a, b, ?_, ?_, hd⟩
    · rw [List.getElem?_append_left (by rw [List.length_dropLast]; omega),
        List.dropLast_eq_take, List.getElem?_take_of_lt (by omega)]
      exact ha
    · have hlen : A.dropLast.length = i + 1 := by rw [List.length_dropLast]; omega
      rw [List.getElem?_append_right (by omega), hlen, Nat.sub_self,
        ← List.head?_eq_getElem?, ← hAB, List.getLast?_eq_getElem?]
      rw [show A.length - 1 = i + 1 from hieq.symm]
      exact hb

theorem simpSegF_cover :
    ∀ (fuel : Nat) (t2 : ℚ) (seg : List Pt), 0 ≤ t2 → 2 ≤ seg.length → seg.length ≤ fuel →
      ∀ x ∈ seg, NearPt t2 (simpSegF fuel t2 seg) x := by
  intro fuel
  induction fuel with
  | zero => intro t2 seg ht h2 hf; omega
  | succ fuel ih =>
      intro t2 seg ht h2 hf x hx
      cases seg with
      | nil => simp at h2
      | cons p t =>
          cases t with
          | nil => simp at h2
          | cons q rest =>
              simp only [simpSegF]
              by_cases hc : t2 < (dpFind (p :: q :: rest)).1
              · rw [if_pos hc]
                obtain ⟨hk1, hk2⟩ := dpFind_bounds p q rest t2 ht hc
                have hlen : (p :: q :: rest).length = rest.length + 2 := by simp
                have htl : ((p :: q :: rest).take ((dpFind (p :: q :: rest)).2 + 1)).length
                    = (dpFind (p :: q :: rest)).2 + 1 :=
                  List.length_take_of_le (by omega)
                have hdl : ((p :: q :: rest).drop ((dpFind (p :: q :: rest)).2)).length
                    = (p :: q :: rest).length - (dpFind (p :: q :: rest)).2 :=
                  List.length_drop _ _
                have hsplit : x ∈ (p :: q :: rest).take ((dpFind (p :: q :: rest)).2 + 1) ∨
                    x ∈ (p :: q :: rest).drop ((dpFind (p :: q :: rest)).2) := by
                  have hxx : x ∈ (p :: q :: rest).take ((dpFind (p :: q :: rest)).2 + 1) ++
                      (p :: q :: rest).drop ((dpFind (p :: q :: rest)).2 + 1) := by
                    rw [List.take_append_drop]
                    exact hx
                  rcases List.mem_append.1 hxx with h | h
                  · left; exact h
                  · right
                    have hdd : x ∈ ((p :: q :: rest).drop ((dpFind (p :: q :: rest)).2)).tail := by
                      rw [← List.drop_one, List.drop_drop]
                      exact h
                    exact List.mem_of_mem_tail hdd
                have sL := simpSegF_shape fuel t2
                  ((p :: q :: rest).take ((dpFind (p :: q :: rest)).2 + 1)) ht
                  (by omega) (by omega)
                have sR := simpSegF_shape fuel t2
                  ((p :: q :: rest).drop ((dpFind (p :: q :: rest)).2)) ht
                  (by omega) (by omega)
                have hglue : (simpSegF fuel t2
                    ((p :: q :: rest).take ((dpFind (p :: q :: rest)).2 + 1))).getLast?
                    = (simpSegF fuel t2
                    ((p :: q :: rest).drop ((dpFind (p :: q :: rest)).2))).head? := by
                  rw [sL.2.1, sR.1, getLast?_take_eq _ _ (by omega) (by omega), head?_drop_eq,
                    Nat.add_sub_cancel]
                rcases hsplit with h | h
                · exact nearPt_glue _ _ _ x (ih t2 _ ht (by omega) (by omega) x h) hglue
                · exact nearPt_shift _ _ _ x (ih t2 _ ht (by omega) (by omega) x h)
              · rw [if_neg hc]
                have hdec := dropLast_append_getLastD q rest
                have hx' : x = p ∨ x ∈ (q :: rest).dropLast ∨ x = (q :: rest).getLastD q := by
                  rcases List.mem_cons.1 hx with h | h
                  · left; exact h
                  · rw [← hdec] at h
                    rcases List.mem_append.1 h with h1 | h1
                    · right; left; exact h1
                    · right; right; simpa using h1
                have hd : perpDistSq x p ((q :: rest).getLastD q) ≤ t2 := by
                  rcases hx' with h | h | h
                  · rw [h, perpDistSq_self_left]; exact ht
                  · exact le_trans (dpFind_le_of_mem p q rest x h) (not_lt.1 hc)
                  · rw [h, perpDistSq_self_right]; exact ht
                exact ⟨0, p, (q :: rest).getLastD q, rfl, rfl, hd⟩

theorem mem_of_head?_eq {α : Type} {l : List α} {a : α} (h : l.head? = some a) : a ∈ l := by
  cases l with
  | nil => simp at h
  | cons x t =>
      have hxa : x = a := Option.some.inj (by simpa using h)
      rw [← hxa]
      exact List.mem_cons_self x t

theorem simpSeg_shape (t2 : ℚ) (seg : List Pt) (ht : 0 ≤ t2) (h2 : 2 ≤ seg.length) :
    (simpSeg t2 seg).head? = seg.head? ∧ (simpSeg t2 seg).getLast? = seg.getLast? ∧
    2 ≤ (simpSeg t2 seg).length ∧ (simpSeg t2 seg).length ≤ seg.length :=
  simpSegF_shape seg.length t2 seg ht h2 (le_refl _)

theorem simpSeg_subset (t2 : ℚ) (seg : List Pt) (ht : 0 ≤ t2) :
    ∀ x ∈ simpSeg t2 seg, x ∈ seg :=
  simpSegF_subset seg.length t2 seg ht (le_refl _)

theorem simpSeg_mono (t1 t2 : ℚ) (seg : List Pt) (ht : 0 ≤ t1) (h12 : t1 ≤ t2)
    (h2 : 2 ≤ seg.length) : (simpSeg t2 seg).length ≤ (simpSeg t1 seg).length :=
  simpSegF_mono seg.length t1 t2 seg ht h12 h2 (le_refl _)

theorem simpSeg_cover (t2 : ℚ) (seg : List Pt) (ht : 0 ≤ t2) (h2 : 2 ≤ seg.length) :
    ∀ x ∈ seg, NearPt t2 (simpSeg t2 seg) x :=
  simpSegF_cover seg.length t2 seg ht h2 (le_refl _)

theorem dp_eq_of_guard (R : List Pt) (τ : ℚ) (h : R.length ≤ 2 ∨ τ ≤ 0) :
    douglas_peucker R τ = R := by
  unfold douglas_peucker
  rw [if_pos h]

theorem dp_eq_closed (R : List Pt) (τ : ℚ) (hg : ¬(R.length ≤ 2 ∨ τ ≤ 0))
    (hcl : R.head? = R.getLast?) :
    douglas_peucker R τ =
      if (simpSeg (τ ^ 2) R.dropLast).head? = (simpSeg (τ ^ 2) R.dropLast).getLast?
      then simpSeg (τ ^ 2) R.dropLast
      else simpSeg (τ ^ 2) R.dropLast ++ (simpSeg (τ ^ 2) R.dropLast).take 1 := by
  unfold douglas_peucker
  rw [if_neg hg]
  simp only [if_pos hcl]

theorem dp_eq_open (R : List Pt) (τ : ℚ) (hg : ¬(R.length ≤ 2 ∨ τ ≤ 0))
    (hcl : ¬(R.head? = R.getLast?)) : douglas_peucker R τ = simpSeg (τ ^ 2) R := by
  unfold douglas_peucker
  rw [if_neg hg]
  simp only [if_neg hcl]

theorem dp_len_le (R : List Pt) (τ : ℚ) : (douglas_peucker R τ).length ≤ R.length := by
  by_cases hg : R.length ≤ 2 ∨ τ ≤ 0
  · rw [dp_eq_of_guard R τ hg]
  · have hg' := hg
    rw [not_or] at hg'
    obtain ⟨h3', hτ'⟩ := hg'
    have h3 : 2 < R.length := not_le.1 h3'
    have ht2 : (0:ℚ) ≤ τ ^ 2 := sq_nonneg τ
    by_cases hcl : R.head? = R.getLast?
    · rw [dp_eq_closed R τ hg hcl]
      have hw2 : 2 ≤ R.dropLast.length := by rw [List.length_dropLast]; omega
      have hs := simpSeg_shape (τ ^ 2) R.dropLast ht2 hw2
      have hle := hs.2.2.2
      have h2s := hs.2.2.1
      rw [List.length_dropLast] at hle
      split
      · omega
      · rw [List.length_append, List.length_take]
        omega
    · rw [dp_eq_open R τ hg hcl]
      exact (simpSeg_shape (τ ^ 2) R ht2 (by omega)).2.2.2

theorem dp_ne_nil (R : List Pt) (τ : ℚ) (h : R ≠ []) : douglas_peucker R τ ≠ [] := by
  by_cases hg : R.length ≤ 2 ∨ τ ≤ 0
  · rw [dp_eq_of_guard R τ hg]; exact h
  · have hg' := hg
    rw [not_or] at hg'
    have h3 : 2 < R.length := not_le.1 hg'.1
    have ht2 : (0:ℚ) ≤ τ ^ 2 := sq_nonneg τ
    by_cases hcl : R.head? = R.getLast?
    · rw [dp_eq_closed R τ hg hcl]
      have hw2 : 2 ≤ R.dropLast.length := by rw [List.length_dropLast]; omega
      have hs := simpSeg_shape (τ ^ 2) R.dropLast ht2 hw2
      apply List.ne_nil_of_length_pos
      split
      · omega
      · rw [List.length_append]
        omega
    · rw [dp_eq_open R τ hg hcl]
      apply List.ne_nil_of_length_pos
      have hs := simpSeg_shape (τ ^ 2) R ht2 (by omega)
      omega

/-- Claim C5: simplification at tolerance 0 is the identity, both for
`douglas_peucker` on any ring and for `simplify_geojson` on any
FeatureCollection. -/
theorem tolerance_zero_is_identity : ∀ (R : List Pt) (g : FeatureCollection),
    douglas_peucker R 0 = R ∧ simplify_geojson g 0 = some g := by
  intro R g
  constructor
  · exact dp_eq_of_guard R 0 (Or.inr (le_refl 0))
  · unfold simplify_geojson
    rw [if_pos (le_refl (0:ℚ))]

/-- Claim C2 (amended): for `douglas_peucker` itself, the output point
count is monotonically non-increasing in the tolerance. -/
theorem dp_length_antitone (R : List Pt) (τ1 τ2 : ℚ) (h1 : 0 ≤ τ1) (h12 : τ1 ≤ τ2) :
    (douglas_peucker R τ2).length ≤ (douglas_peucker R τ1).length := by
  by_cases hg1 : R.length ≤ 2 ∨ τ1 ≤ 0
  · rw [dp_eq_of_guard R τ1 hg1]
    exact dp_len_le R τ2
  · have hg1' := hg1
    rw [not_or] at hg1'
    obtain ⟨h3', ht1'⟩ := hg1'
    have h3 : 2 < R.length := not_le.1 h3'
    have ht1 : 0 < τ1 := not_le.1 ht1'
    have ht2 : 0 < τ2 := lt_of_lt_of_le ht1 h12
    have hg2 : ¬(R.length ≤ 2 ∨ τ2 ≤ 0) := by rw [not_or]; exact ⟨h3', not_le.2 ht2⟩
    have hsq : τ1 ^ 2 ≤ τ2 ^ 2 := pow_le_pow_left₀ h1 h12 2
    have hsq0 : (0:ℚ) ≤ τ1 ^ 2 := sq_nonneg _
    by_cases hcl : R.head? = R.getLast?
    · rw [dp_eq_closed R τ1 hg1 hcl, dp_eq_closed R τ2 hg2 hcl]
      have hw2 : 2 ≤ R.dropLast.length := by rw [List.length_dropLast]; omega
      have hmono := simpSeg_mono (τ1 ^ 2) (τ2 ^ 2) R.dropLast hsq0 hsq hw2
      have hs1 := simpSeg_shape (τ1 ^ 2) R.dropLast hsq0 hw2
      have hs2 := simpSeg_shape (τ2 ^ 2) R.dropLast (sq_nonneg _) hw2
      have hcond : ((simpSeg (τ1 ^ 2) R.dropLast).head? = (simpSeg (τ1 ^ 2) R.dropLast).getLast?)
          ↔ ((simpSeg (τ2 ^ 2) R.dropLast).head? = (simpSeg (τ2 ^ 2) R.dropLast).getLast?) := by
        rw [hs1.1, hs1.2.1, hs2.1, hs2.2.1]
      by_cases hcc : (simpSeg (τ1 ^ 2) R.dropLast).head? = (simpSeg (τ1 ^ 2) R.dropLast).getLast?
      · rw [if_pos hcc, if_pos (hcond.1 hcc)]
        exact hmono
      · rw [if_neg hcc, if_neg (fun hc => hcc (hcond.2 hc))]
        rw [List.length_append, List.length_append, List.length_take, List.length_take]
        have ha := hs1.2.2.1
        have hb := hs2.2.2.1
        omega
    · rw [dp_eq_open R τ1 hg1 hcl, dp_eq_open R τ2 hg2 hcl]
      exact simpSeg_mono _ _ R hsq0 hsq (by omega)

/-- Claim C4: every point of `douglas_peucker R τ` is a member of `R`,
and every point of `R` is within (squared) perpendicular distance `τ ^ 2`
of some segment of the simplified result (segment distance with clamped
projection and degenerate-segment fallback, per `perpDistSq`). -/
theorem dp_subset_and_within_tolerance (R : List Pt) (τ : ℚ) (hτ : 0 < τ)
    (hR : 2 ≤ R.length) :
    (∀ x ∈ douglas_peucker R τ, x ∈ R) ∧
    (∀ p ∈ R, NearPt (τ ^ 2) (douglas_peucker R τ) p) := by
  have ht2 : (0:ℚ) ≤ τ ^ 2 := sq_nonneg τ
  by_cases hg : R.length ≤ 2 ∨ τ ≤ 0
  · rw [dp_eq_of_guard R τ hg]
    have hlen : R.length = 2 := by
      rcases hg with h | h
      · omega
      · exact absurd h (not_le.2 hτ)
    constructor
    · intro x hx; exact hx
    · intro p hp
      cases R with
      | nil => simp at hlen
      | cons a t =>
          cases t with
          | nil => simp at hlen
          | cons b t2 =>
              cases t2 with
              | nil =>
                  rcases List.mem_cons.1 hp with h | h
                  · exact ⟨0, a, b, rfl, rfl, by rw [h, perpDistSq_self_left]; exact ht2⟩
                  · have hb : p = b := by simpa using h
                    exact ⟨0, a, b, rfl, rfl, by rw [hb, perpDistSq_self_right]; exact ht2⟩
              | cons c t3 => simp at hlen
  · have hg' := hg
    rw [not_or] at hg'
    have h3 : 2 < R.length := not_le.1 hg'.1
    by_cases hcl : R.head? = R.getLast?
    · rw [dp_eq_closed R τ hg hcl]
      have hw2 : 2 ≤ R.dropLast.length := by rw [List.length_dropLast]; omega
      constructor
      · intro x hx
        split at hx
        · exact List.dropLast_subset _ (simpSeg_subset _ _ ht2 x hx)
        · rcases List.mem_append.1 hx with h | h
          · exact List.dropLast_subset _ (simpSeg_subset _ _ ht2 x h)
          · exact List.dropLast_subset _ (simpSeg_subset _ _ ht2 x (List.take_subset _ _ h))
      · intro p hp
        have hR0 : R ≠ [] := by
          intro hc
          rw [hc] at h3
          simp at h3
        have hpw : p ∈ R.dropLast := by
          have hdec := List.dropLast_append_getLast (l := R) hR0
          rw [← hdec] at hp
          rcases List.mem_append.1 hp with h | h
          · exact h
          · have hpe : p = R.getLast hR0 := by simpa using h
            have hh : R.head? = some (R.getLast hR0) := by
              rw [hcl, List.getLast?_eq_getLast _ hR0]
            have hdh : R.dropLast.head? = R.head? := head?_dropLast_eq R (by omega)
            exact mem_of_head?_eq (by rw [hdh, hh, hpe])
        have hnear := simpSeg_cover (τ ^ 2) R.dropLast ht2 hw2 p hpw
        split
        · exact hnear
        · exact nearPt_append _ _ _ _ hnear
    · rw [dp_eq_open R τ hg hcl]
      constructor
      · exact fun x hx => simpSeg_subset _ _ ht2 x hx
      · exact fun p hp => simpSeg_cover (τ ^ 2) R ht2 (by omega) p hp

theorem optMapM_some_of {α β : Type} (f : α → Option β) :
    ∀ (l : List α), (∀ x ∈ l, ∃ y, f x = some y) → ∃ ys, optMapM f l = some ys := by
  intro l
  induction l with
  | nil => intro _; exact ⟨[], rfl⟩
  | cons x xs ih =>
      intro h
      obtain ⟨y, hy⟩ := h x (List.mem_cons_self x xs)
      obtain ⟨ys, hys⟩ := ih (fun z hz => h z (List.mem_cons_of_mem x hz))
      exact ⟨y :: ys, by simp [optMapM, hy, hys]⟩

theorem optMapM_mem_src {α β : Type} (f : α → Option β) :
    ∀ (l : List α) (ys : List β), optMapM f l = some ys → ∀ y ∈ ys, ∃ x ∈ l, f x = some y := by
  intro l
  induction l with
  | nil =>
      intro ys h y hy
      simp only [optMapM] at h
      rw [← Option.some.inj h] at hy
      simp at hy
  | cons x xs ih =>
      intro ys h y hy
      cases hfx : f x with
      | none => simp only [optMapM, hfx] at h; exact Option.noConfusion h
      | some y0 =>
          cases hrest : optMapM f xs with
          | none => simp only [optMapM, hfx, hrest] at h; exact Option.noConfusion h
          | some ys0 =>
              simp only [optMapM, hfx, hrest] at h
              rw [← Option.some.inj h] at hy
              rcases List.mem_cons.1 hy with h1 | h1
              · exact ⟨x, List.mem_cons_self x xs, by rw [hfx, h1]⟩
              · obtain ⟨x', hx', hfx'⟩ := ih ys0 hrest y h1
                exact ⟨x', List.mem_cons_of_mem x hx', hfx'⟩

theorem optMapM_mem_tgt {α β : Type} (f : α → Option β) :
    ∀ (l : List α) (ys : List β), optMapM f l = some ys → ∀ x ∈ l, ∃ y ∈ ys, f x = some y := by
  intro l
  induction l with
  | nil => intro ys h x hx; simp at hx
  | cons z xs ih =>
      intro ys h x hx
      cases hfx : f z with
      | none => simp only [optMapM, hfx] at h; exact Option.noConfusion h
      | some y0 =>
          cases hrest : optMapM f xs with
          | none => simp only [optMapM, hfx, hrest] at h; exact Option.noConfusion h
          | some ys0 =>
              simp only [optMapM, hfx, hrest] at h
              rw [← Option.some.inj h]
              rcases List.mem_cons.1 hx with h1 | h1
              · exact ⟨y0, List.mem_cons_self y0 ys0, by rw [h1, hfx]⟩
              · obtain ⟨y, hy, hfy⟩ := ih ys0 hrest x h1
                exact ⟨y, List.mem_cons_of_mem y0 hy, hfy⟩

theorem optMapM_pointwise {α β : Type} (f : α → Option β) :
    ∀ (l : List α) (ys : List β), optMapM f l = some ys →
      ∀ (i : Nat) (x : α) (y : β), l[i]? = some x → ys[i]? = some y → f x = some y := by
  intro l
  induction l with
  | nil => intro ys h i x y hx hy; simp at hx
  | cons z xs ih =>
      intro ys h i x y hx hy
      cases hfx : f z with
      | none => simp only [optMapM, hfx] at h; exact Option.noConfusion h
      | some y0 =>
          cases hrest : optMapM f xs with
          | none => simp only [optMapM, hfx, hrest] at h; exact Option.noConfusion h
          | some ys0 =>
              simp only [optMapM, hfx, hrest] at h
              rw [← Option.some.inj h] at hy
              cases i with
              | zero =>
                  have hxz : x = z := by simpa using hx.symm
                  have hyy : y = y0 := by simpa using hy.symm
                  rw [hxz, hyy]
                  exact hfx
              | succ j =>
                  have hx' : xs[j]? = some x := by simpa using hx
                  have hy' : ys0[j]? = some y := by simpa using hy
                  exact ih ys0 hrest j x y hx' hy'

theorem closeRing?_some_of_ne_nil (r : List Pt) (h : r ≠ []) :
    ∃ r', closeRing? r = some r' := by
  cases r with
  | nil => exact absurd rfl h
  | cons a t => exact ⟨_, rfl⟩

theorem closeRing?_closed (r r' : List Pt) (h : closeRing? r = some r') : ClosedRing r' := by
  cases r with
  | nil => simp [closeRing?] at h
  | cons a t =>
      simp only [closeRing?] at h
      rw [← Option.some.inj h]
      by_cases hc : (a :: t).getLast? = some a
      · rw [if_pos hc]
        exact ⟨by simp, by rw [hc]; rfl⟩
      · rw [if_neg hc]
        refine ⟨by simp, ?_⟩
        rw [head?_append_of_ne_nil _ _ (by simp), List.getLast?_concat]
        rfl

theorem simplifyRingP_some (tol : ℚ) (r : List Pt) (h : r ≠ []) :
    ∃ r', simplifyRingP tol r = some r' := by
  unfold simplifyRingP
  split
  · exact closeRing?_some_of_ne_nil r h
  · exact closeRing?_some_of_ne_nil _ (dp_ne_nil r tol h)

theorem simpFeature_some (tol : ℚ) (f : Feature)
    (hne : ∀ r ∈ featureRings f, r ≠ []) : ∃ fs, simpFeature tol f = some fs := by
  obtain ⟨props, geom⟩ := f
  cases geom with
  | polygon rings =>
      have hrings : ∀ r ∈ rings, r ≠ [] := by
        intro r hr
        exact hne r (by simpa [featureRings] using hr)
      obtain ⟨nc, hnc⟩ := optMapM_some_of (simplifyRingP tol) rings
        (fun r hr => simplifyRingP_some tol r (hrings r hr))
      exact ⟨[⟨props, .polygon nc⟩], by simp [simpFeature, hnc]⟩
  | lineString coords => exact ⟨_, rfl⟩
  | multiPolygon polys => exact ⟨_, rfl⟩
  | multiLineString lines => exact ⟨_, rfl⟩
  | other => exact ⟨_, rfl⟩

theorem simpFeature_rings_closed (tol : ℚ) (f : Feature) (fs : List Feature)
    (h : simpFeature tol f = some fs) : ∀ g ∈ fs, ∀ r ∈ featureRings g, ClosedRing r := by
  obtain ⟨props, geom⟩ := f
  cases geom with
  | polygon rings =>
      intro g hg r hr
      simp only [simpFeature] at h
      cases hm : optMapM (simplifyRingP tol) rings with
      | none => rw [hm] at h; simp at h
      | some nc =>
          rw [hm] at h
          simp only [Option.map_some'] at h
          rw [← Option.some.inj h] at hg
          have hgeq : g = ⟨props, .polygon nc⟩ := by simpa using hg
          rw [hgeq] at hr
          simp only [featureRings] at hr
          obtain ⟨ring, _, hring⟩ := optMapM_mem_src _ _ _ hm r hr
          unfold simplifyRingP at hring
          exact closeRing?_closed _ _ hring
  | lineString coords =>
      intro g hg r hr
      simp only [simpFeature] at h
      rw [← Option.some.inj h] at hg
      split at hg
      · have hgeq : g = ⟨props, .lineString (douglas_peucker coords tol)⟩ := by simpa using hg
        rw [hgeq] at hr
        simp [featureRings] at hr
      · simp at hg
  | multiPolygon polys =>
      intro g hg r hr
      simp only [simpFeature] at h
      rw [← Option.some.inj h] at hg
      split at hg
      · simp at hg
      · have hgeq : g = ⟨props, .multiPolygon (polys.filterMap (fun poly =>
            if (poly.filterMap (simplifyRingMP tol)).isEmpty then none
            else some (poly.filterMap (simplifyRingMP tol))))⟩ := by
          simpa using hg
        rw [hgeq] at hr
        simp only [featureRings] at hr
        obtain ⟨np, hnp, hrnp⟩ := List.mem_flatten.1 hr
        obtain ⟨poly, _, hpoly⟩ := List.mem_filterMap.1 hnp
        have hnpeq : np = poly.filterMap (simplifyRingMP tol) := by
          by_cases hemp : (poly.filterMap (simplifyRingMP tol)).isEmpty
          · rw [if_pos hemp] at hpoly; simp at hpoly
          · rw [if_neg hemp] at hpoly; exact (Option.some.inj hpoly).symm
        rw [hnpeq] at hrnp
        obtain ⟨ring, _, hring⟩ := List.mem_filterMap.1 hrnp
        unfold simplifyRingMP at hring
        split at hring
        · exact closeRing?_closed _ _ hring
        · simp at hring
  | multiLineString lines =>
      intro g hg r hr
      simp only [simpFeature] at h
      rw [← Option.some.inj h] at hg
      have hgeq : g = ⟨props, .multiLineString lines⟩ := by simpa using hg
      rw [hgeq] at hr
      simp [featureRings] at hr
  | other =>
      intro g hg r hr
      simp only [simpFeature] at h
      rw [← Option.some.inj h] at hg
      have hgeq : g = ⟨props, .other⟩ := by simpa using hg
      rw [hgeq] at hr
      simp [featureRings] at hr

/-- Claim C8: for a collection whose Polygon/MultiPolygon rings are all
closed and a positive tolerance, `simplify_geojson` succeeds and every
ring of every Polygon or MultiPolygon feature of the output is closed. -/
theorem simplify_preserves_ring_closure (g : FeatureCollection) (τ : ℚ) (hτ : 0 < τ)
    (hcl : ∀ f ∈ g.features, ∀ r ∈ featureRings f, ClosedRing r) :
    ∃ out, simplify_geojson g τ = some out ∧
      ∀ f ∈ out.features, ∀ r ∈ featureRings f, ClosedRing r := by
  have hne : ∀ f ∈ g.features, ∀ r ∈ featureRings f, r ≠ [] :=
    fun f hf r hr => (hcl f hf r hr).1
  obtain ⟨fss, hfss⟩ := optMapM_some_of (simpFeature τ) g.features
    (fun f hf => simpFeature_some τ f (hne f hf))
  refine ⟨⟨fss.flatten⟩, ?_, ?_⟩
  · unfold simplify_geojson
    rw [if_neg (not_le.2 hτ), hfss]
    rfl
  · intro f' hf' r hr
    obtain ⟨fs, hfsmem, hf'mem⟩ := List.mem_flatten.1 hf'
    obtain ⟨f, _, hfeq⟩ := optMapM_mem_src _ _ _ hfss fs hfsmem
    exact simpFeature_rings_closed τ f fs hfeq f' hf'mem r hr

/-- Claim C1 (amended): for a positive tolerance and non-empty rings,
`simplify_geojson` emits, for every Polygon feature, a Polygon feature
whose rings are the images under the per-ring transform, and a ring whose
Douglas-Peucker simplification has fewer than 4 points is replaced by the
original ring (then closed); for MultiPolygon features such a ring is
dropped instead (`simplifyRingMP` returns `none`). -/
theorem polygon_fallback_multipolygon_drop (g : FeatureCollection) (τ : ℚ) (hτ : 0 < τ)
    (hne : ∀ f ∈ g.features, ∀ r ∈ featureRings f, r ≠ []) :
    (∃ out, simplify_geojson g τ = some out ∧
      ∀ f ∈ g.features, ∀ rings, f.geometry = .polygon rings →
        ∃ rings', optMapM (simplifyRingP τ) rings = some rings' ∧
          Feature.mk f.properties (.polygon rings') ∈ out.features ∧
          (∀ (i : Nat) (r r' : List Pt), rings[i]? = some r → rings'[i]? = some r' →
            simplifyRingP τ r = some r')) ∧
    (∀ r : List Pt, (douglas_peucker r τ).length < 4 → simplifyRingP τ r = closeRing? r) ∧
    (∀ r : List Pt, (douglas_peucker r τ).length < 4 → simplifyRingMP τ r = none) := by
  refine ⟨?_, ?_, ?_⟩
  · obtain ⟨fss, hfss⟩ := optMapM_some_of (simpFeature τ) g.features
      (fun f hf => simpFeature_some τ f (hne f hf))
    refine ⟨⟨fss.flatten⟩, ?_, ?_⟩
    · unfold simplify_geojson
      rw [if_neg (not_le.2 hτ), hfss]
      rfl
    · intro f hf rings hgeom
      obtain ⟨fs, hfs, hfeq⟩ := optMapM_mem_tgt _ _ _ hfss f hf
      obtain ⟨props, geom⟩ := f
      simp only at hgeom
      subst hgeom
      simp only [simpFeature] at hfeq
      cases hm : optMapM (simplifyRingP τ) rings with
      | none => rw [hm] at hfeq; exact Option.noConfusion hfeq
      | some rings' =>
          rw [hm] at hfeq
          simp only [Option.map_some'] at hfeq
          refine ⟨rings', rfl, ?_, ?_⟩
          · have hmem : (⟨props, .polygon rings'⟩ : Feature) ∈ fs := by
              rw [← Option.some.inj hfeq]
              simp
            exact List.mem_flatten.2 ⟨fs, hfs, hmem⟩
          · exact fun i r r' hr hr' => optMapM_pointwise _ _ _ hm i r r' hr hr'
  · intro r h
    unfold simplifyRingP
    rw [if_pos h]
  · intro r h
    unfold simplifyRingMP
    rw [if_neg (by omega)]

/-- Claim C1 counterexample: a closed MultiPolygon ring whose
Douglas-Peucker simplification has fewer than 4 points is dropped
entirely by `simplify_geojson` (the output collection is empty), not
replaced by the original ring as the claim states. -/
theorem multipolygon_ring_dropped_cex :
    (douglas_peucker [((0:ℚ), (0:ℚ)), (1, 0), (0, 0)] 1).length < 4 ∧
    simplify_geojson ⟨[⟨[], .multiPolygon [[[((0:ℚ), (0:ℚ)), (1, 0), (0, 0)]]]⟩]⟩ 1
      = some ⟨[]⟩ := by
  constructor
  · norm_num [douglas_peucker, simpSeg, simpSegF, dpFind, maxFold, perpDistSq, Prod.ext_iff]
  · norm_num [simplify_geojson, optMapM, simpFeature, simplifyRingMP, closeRing?,
      douglas_peucker, simpSeg, simpSegF, dpFind, maxFold, perpDistSq, Prod.ext_iff]

/-- Claim C2 counterexample: for the ring simplification of
`simplify_geojson` (Douglas-Peucker plus the under-4-points fallback to
the original ring), the output point count is not monotone in the
tolerance: the same ring yields 4 points at τ = 7/10 but 5 points at the
larger τ = 6/5, because the coarser simplification collapses to 3 points
and is replaced by the original 5-point ring. -/
theorem simplify_count_not_antitone_cex :
    ((7:ℚ)/10 ≤ 6/5) ∧
    simplify_geojson ⟨[⟨[], .polygon [[((0:ℚ), (0:ℚ)), (2, 1), (4, 2/5), (6, 0), (0, 0)]]⟩]⟩ (7/10)
      = some ⟨[⟨[], .polygon [[(0, 0), (2, 1), (6, 0), (0, 0)]]⟩]⟩ ∧
    simplify_geojson ⟨[⟨[], .polygon [[((0:ℚ), (0:ℚ)), (2, 1), (4, 2/5), (6, 0), (0, 0)]]⟩]⟩ (6/5)
      = some ⟨[⟨[], .polygon [[(0, 0), (2, 1), (4, 2/5), (6, 0), (0, 0)]]⟩]⟩ := by
  refine ⟨by norm_num, ?_, ?_⟩
  · norm_num [simplify_geojson, optMapM, simpFeature, simplifyRingP, closeRing?,
      douglas_peucker, simpSeg, simpSegF, dpFind, maxFold, perpDistSq, Prod.ext_iff]
  · norm_num [simplify_geojson, optMapM, simpFeature, simplifyRingP, closeRing?,
      douglas_peucker, simpSeg, simpSegF, dpFind, maxFold, perpDistSq, Prod.ext_iff]

/-- Claim C6 (amended): a Polygon whose 5-point exterior ring has four
axis-aligned edges is classified as an artifact provided its bounding box
is at least 1e-4 degrees in both dimensions (tiny boxes are rejected
first); and a 5-point exterior with not-all-axis-aligned edges and
area-to-bounding-box ratio below 0.95 is never classified as an
artifact. -/
theorem rectangular_artifact_classification :
    (∀ (props : List (String × String)) (ext : List Pt) (rest : List (List Pt)) (tol : ℚ),
       ext.length = 5 → axisAlignedCount ext tol = 4 →
       1/10000 ≤ bboxW ext → 1/10000 ≤ bboxH ext →
       is_rectangular_feature ⟨props, .polygon (ext :: rest)⟩ tol = true) ∧
    (∀ (props : List (String × String)) (ext : List Pt) (rest : List (List Pt)) (tol : ℚ),
       ext.length = 5 → axisAlignedCount ext tol ≠ 4 → area_ratio ext < 19/20 →
       is_rectangular_feature ⟨props, .polygon (ext :: rest)⟩ tol = false) := by
  constructor
  · intro props ext rest tol h5 hcount hw hh
    simp only [is_rectangular_feature]
    rw [if_neg (by omega), if_neg (by push_neg; exact ⟨hw, hh⟩)]
    by_cases hr : 19/20 < area_ratio ext
    · rw [if_pos hr]
    · rw [if_neg hr, if_pos h5, if_pos hcount]
  · intro props ext rest tol h5 hcount hr
    simp only [is_rectangular_feature]
    rw [if_neg (by omega)]
    by_cases hbb : bboxW ext < 1/10000 ∨ bboxH ext < 1/10000
    · rw [if_pos hbb]
    · rw [if_neg hbb, if_neg (by linarith), if_pos h5, if_neg hcount]

/-- Claim C6 counterexample: a 5-point ring with all four edges exactly
axis-aligned whose bounding box is below the 1e-4 threshold is NOT
classified as an artifact (`is_rectangular_feature` rejects tiny boxes
before the axis-alignment check), contradicting the claim's first half
as stated. -/
theorem tiny_rectangle_not_artifact_cex :
    ([((0:ℚ), (0:ℚ)), (1/20000, 0), (1/20000, 1/20000), (0, 1/20000), (0, 0)] : List Pt).length = 5 ∧
    axisAlignedCount
      [((0:ℚ), (0:ℚ)), (1/20000, 0), (1/20000, 1/20000), (0, 1/20000), (0, 0)] (1/1000) = 4 ∧
    is_rectangular_feature
      ⟨[], .polygon [[((0:ℚ), (0:ℚ)), (1/20000, 0), (1/20000, 1/20000), (0, 1/20000), (0, 0)]]⟩
      (1/1000) = false := by
  refine ⟨by norm_num, ?_, ?_⟩
  · norm_num [axisAlignedCount, List.range_succ, List.countP_cons, List.countP_nil]
  · norm_num [is_rectangular_feature, bboxW, bboxH, listMin, listMax]

/-- Witness for the amended artifact classification: the unit square is
classified as an artifact, and a pentagon-shaped promontory with area
ratio 3/8 is not. -/
theorem rectangular_artifact_classification_witness :
    (([((0:ℚ), (0:ℚ)), (1, 0), (1, 1), (0, 1), (0, 0)] : List Pt).length = 5 ∧
     axisAlignedCount [((0:ℚ), (0:ℚ)), (1, 0), (1, 1), (0, 1), (0, 0)] (1/1000) = 4 ∧
     1/10000 ≤ bboxW [((0:ℚ), (0:ℚ)), (1, 0), (1, 1), (0, 1), (0, 0)] ∧
     1/10000 ≤ bboxH [((0:ℚ), (0:ℚ)), (1, 0), (1, 1), (0, 1), (0, 0)] ∧
     is_rectangular_feature
       ⟨[], .polygon [[((0:ℚ), (0:ℚ)), (1, 0), (1, 1), (0, 1), (0, 0)]]⟩ (1/1000) = true) ∧
    (([((0:ℚ), (0:ℚ)), (4, 1), (2, 3), (1, 1), (0, 0)] : List Pt).length = 5 ∧
     axisAlignedCount [((0:ℚ), (0:ℚ)), (4, 1), (2, 3), (1, 1), (0, 0)] (1/1000) ≠ 4 ∧
     area_ratio [((0:ℚ), (0:ℚ)), (4, 1), (2, 3), (1, 1), (0, 0)] < 19/20 ∧
     is_rectangular_feature
       ⟨[], .polygon [[((0:ℚ), (0:ℚ)), (4, 1), (2, 3), (1, 1), (0, 0)]]⟩ (1/1000) = false) := by
  have ha1 : axisAlignedCount [((0:ℚ), (0:ℚ)), (1, 0), (1, 1), (0, 1), (0, 0)] (1/1000) = 4 := by
    norm_num [axisAlignedCount, List.range_succ, List.countP_cons, List.countP_nil]
  have ha2 : 1/10000 ≤ bboxW [((0:ℚ), (0:ℚ)), (1, 0), (1, 1), (0, 1), (0, 0)] := by
    norm_num [bboxW, listMin, listMax]
  have ha3 : 1/10000 ≤ bboxH [((0:ℚ), (0:ℚ)), (1, 0), (1, 1), (0, 1), (0, 0)] := by
    norm_num [bboxH, listMin, listMax]
  have hb1 : axisAlignedCount [((0:ℚ), (0:ℚ)), (4, 1), (2, 3), (1, 1), (0, 0)] (1/1000) ≠ 4 := by
    norm_num [axisAlignedCount, List.range_succ, List.countP_cons, List.countP_nil]
  have hb2 : area_ratio [((0:ℚ), (0:ℚ)), (4, 1), (2, 3), (1, 1), (0, 0)] < 19/20 := by
    norm_num [area_ratio, shoelaceArea, bboxW, bboxH, listMin, listMax, List.range_succ]
  exact ⟨⟨by norm_num, ha1, ha2, ha3,
      rectangular_artifact_classification.1 [] _ [] (1/1000) (by norm_num) ha1 ha2 ha3⟩,
    ⟨by norm_num, hb1, hb2,
      rectangular_artifact_classification.2 [] _ [] (1/1000) (by norm_num) hb1 hb2⟩⟩

/-- Claim C3 (amended, positive half): the encoders of
`download_enc_direct.py` and `download_gshhg.py` map the empty collection
to a well-formed header with polygon count 0 and bounds (0,0,0,0). -/
theorem empty_collection_zero_bounds :
    geojson_to_binary_enc ⟨[]⟩
      = [.magic, .u16 1, .u32 0, .f64 (.fin 0), .f64 (.fin 0), .f64 (.fin 0), .f64 (.fin 0)] ∧
    geojson_to_binary_gshhg ⟨[]⟩
      = [.magic, .u16 1, .u32 0, .f64 (.fin 0), .f64 (.fin 0), .f64 (.fin 0), .f64 (.fin 0)] :=
  ⟨rfl, rfl⟩

/-- Claim C3 counterexample: the encoder of `download_noaa_data.py` has no
empty-collection handling, so the empty collection encodes with polygon
count 0 but bounds (+inf, +inf, -inf, -inf), not (0,0,0,0). -/
theorem noaa_empty_bounds_not_zero_cex :
    geojson_to_binary_noaa ⟨[]⟩
      = [.magic, .u16 1, .u32 0, .f64 .pinf, .f64 .pinf, .f64 .ninf, .f64 .ninf] ∧
    geojson_to_binary_noaa ⟨[]⟩
      ≠ [.magic, .u16 1, .u32 0, .f64 (.fin 0), .f64 (.fin 0), .f64 (.fin 0), .f64 (.fin 0)] := by
  constructor
  · rfl
  · intro h
    have h1 : geojson_to_binary_noaa ⟨[]⟩
        = [.magic, .u16 1, .u32 0, .f64 .pinf, .f64 .pinf, .f64 .ninf, .f64 .ninf] := rfl
    rw [h1] at h
    simp at h

theorem foldl_congr_mem {α β : Type} (f g : β → α → β) :
    ∀ (l : List α) (b : β), (∀ a x, x ∈ l → f a x = g a x) → l.foldl f b = l.foldl g b := by
  intro l
  induction l with
  | nil => intro b _; rfl
  | cons x xs ih =>
      intro b h
      simp only [List.foldl_cons]
      rw [h b x (List.mem_cons_self x xs)]
      exact ih _ (fun a y hy => h a y (List.mem_cons_of_mem x hy))

theorem stepEnc_eq_stepPM (acc : List EncPoly × Bnds) (f : Feature)
    (h : isPM f.geometry = true) : stepEnc acc f = stepPM acc f := by
  obtain ⟨props, geom⟩ := f
  cases geom with
  | polygon rings => cases rings with | nil => rfl | cons a t => rfl
  | multiPolygon polys => rfl
  | lineString _ => simp [isPM] at h
  | multiLineString _ => simp [isPM] at h
  | other => simp [isPM] at h

/-- Claim C10 (amended): for collections of Polygon/MultiPolygon features,
the enc_direct and gshhg encoders produce identical NVTL field streams
unconditionally, and the noaa encoder agrees with them whenever the
collected polygon list is non-empty (it differs only in the missing
empty-collection bounds zeroing). -/
theorem encoders_agree (g : FeatureCollection)
    (hpm : ∀ f ∈ g.features, isPM f.geometry = true) :
    geojson_to_binary_enc g = geojson_to_binary_gshhg g ∧
    (polysPM g ≠ [] → geojson_to_binary_noaa g = geojson_to_binary_enc g) := by
  have hfold : g.features.foldl stepEnc ([], initB) = g.features.foldl stepPM ([], initB) :=
    foldl_congr_mem _ _ _ _ (fun a x hx => stepEnc_eq_stepPM a x (hpm x hx))
  constructor
  · unfold geojson_to_binary_enc geojson_to_binary_gshhg polysPM
    rw [hfold]
  · intro hne
    have hemp : ((g.features.foldl stepPM ([], initB)).1.isEmpty) = false := by
      rw [List.isEmpty_eq_false]
      exact hne
    unfold geojson_to_binary_noaa geojson_to_binary_enc polysPM
    rw [hfold, hemp]
    simp

/-- Claim C10 counterexample: on the empty collection (vacuously all of
whose features are Polygon or MultiPolygon) the enc_direct and noaa
encoders return different field streams: zeroed bounds versus infinite
bounds. -/
theorem encoders_disagree_on_empty_cex :
    geojson_to_binary_enc ⟨[]⟩ ≠ geojson_to_binary_noaa ⟨[]⟩ := by
  intro h
  have h1 : geojson_to_binary_enc ⟨[]⟩
      = [.magic, .u16 1, .u32 0, .f64 (.fin 0), .f64 (.fin 0), .f64 (.fin 0), .f64 (.fin 0)] := rfl
  have h2 : geojson_to_binary_noaa ⟨[]⟩
      = [.magic, .u16 1, .u32 0, .f64 .pinf, .f64 .pinf, .f64 .ninf, .f64 .ninf] := rfl
  rw [h1, h2] at h
  simp at h

/-- Witness for `encoders_agree` at a one-polygon collection. -/
theorem encoders_agree_witness :
    (∀ f ∈ (⟨[⟨[], .polygon [[((0:ℚ), (0:ℚ))]]⟩]⟩ : FeatureCollection).features,
        isPM f.geometry = true) ∧
    polysPM ⟨[⟨[], .polygon [[((0:ℚ), (0:ℚ))]]⟩]⟩ ≠ [] ∧
    (geojson_to_binary_enc ⟨[⟨[], .polygon [[((0:ℚ), (0:ℚ))]]⟩]⟩
       = geojson_to_binary_gshhg ⟨[⟨[], .polygon [[((0:ℚ), (0:ℚ))]]⟩]⟩ ∧
     geojson_to_binary_noaa ⟨[⟨[], .polygon [[((0:ℚ), (0:ℚ))]]⟩]⟩
       = geojson_to_binary_enc ⟨[⟨[], .polygon [[((0:ℚ), (0:ℚ))]]⟩]⟩) := by
  have hpm : ∀ f ∈ (⟨[⟨[], .polygon [[((0:ℚ), (0:ℚ))]]⟩]⟩ : FeatureCollection).features,
      isPM f.geometry = true := by
    intro f hf
    rw [List.mem_singleton] at hf
    subst hf
    rfl
  have hne : polysPM ⟨[⟨[], .polygon [[((0:ℚ), (0:ℚ))]]⟩]⟩ ≠ [] := by
    have hpp : polysPM ⟨[⟨[], .polygon [[((0:ℚ), (0:ℚ))]]⟩]⟩
        = [([((0:ℚ), (0:ℚ))], [])] := rfl
    rw [hpp]
    exact List.cons_ne_nil _ _
  have hc := encoders_agree ⟨[⟨[], .polygon [[((0:ℚ), (0:ℚ))]]⟩]⟩ hpm
  exact ⟨hpm, hne, hc.1, hc.2 hne⟩

/-- Claim C7: if the union operation of the geometry engine raises, the
Polygon Merger returns the original input feature list unchanged. -/
theorem merge_failure_returns_input {GObj : Type} (parse : Geometry → Option GObj)
    (union : List GObj → Except String ShapelyOut) (features : List Feature) (msg : String)
    (h : union (extractMergePolys parse features) = .error msg) :
    merge_land_polygons parse union features = features := by
  simp only [merge_land_polygons]
  by_cases hemp : (extractMergePolys parse features).isEmpty
  · rw [if_pos hemp]
  · rw [if_neg hemp, h]

/-- Witness for `merge_failure_returns_input`: a trivial engine whose
union always raises leaves a one-feature collection unchanged. -/
theorem merge_failure_returns_input_witness :
    (fun (_ : List Unit) => (Except.error "boom" : Except String ShapelyOut))
        (extractMergePolys (fun _ => some ()) [⟨[], .polygon [[((0:ℚ), (0:ℚ))]]⟩])
      = .error "boom" ∧
    merge_land_polygons (fun _ => some ())
        (fun (_ : List Unit) => (Except.error "boom" : Except String ShapelyOut))
        [⟨[], .polygon [[((0:ℚ), (0:ℚ))]]⟩]
      = [⟨[], .polygon [[((0:ℚ), (0:ℚ))]]⟩] :=
  ⟨rfl, merge_failure_returns_input _ _ _ "boom" rfl⟩

theorem readN_error (n : Nat) (b : List Nat) (e : DecodeError) (h : readN n b = .error e) :
    e = .truncated := by
  unfold readN at h
  split at h
  · exact (Except.error.inj h).symm
  · exact Except.noConfusion h

theorem readRing_error (b : List Nat) (e : DecodeError) (h : readRing b = .error e) :
    e = .truncated := by
  unfold readRing at h
  cases h4 : readN 4 b with
  | error e' =>
      simp only [h4] at h
      rw [← Except.error.inj h]
      exact readN_error _ _ _ h4
  | ok pr =>
      obtain ⟨cb, r⟩ := pr
      simp only [h4] at h
      cases hp : readN (16 * leVal cb) r with
      | error e' =>
          simp only [hp] at h
          rw [← Except.error.inj h]
          exact readN_error _ _ _ hp
      | ok pr2 =>
          obtain ⟨pts, r'⟩ := pr2
          simp only [hp] at h
          exact Except.noConfusion h

theorem readRings_error : ∀ (n : Nat) (b : List Nat) (e : DecodeError),
    readRings n b = .error e → e = .truncated := by
  intro n
  induction n with
  | zero => intro b e h; simp only [readRings] at h; exact Except.noConfusion h
  | succ m ih =>
      intro b e h
      simp only [readRings] at h
      cases hr : readRing b with
      | error e' =>
          simp only [hr] at h
          rw [← Except.error.inj h]
          exact readRing_error _ _ hr
      | ok pr =>
          obtain ⟨ring, r⟩ := pr
          simp only [hr] at h
          cases hrs : readRings m r with
          | error e' =>
              simp only [hrs] at h
              rw [← Except.error.inj h]
              exact ih _ _ hrs
          | ok pr2 =>
              obtain ⟨rs, r'⟩ := pr2
              simp only [hrs] at h
              exact Except.noConfusion h

theorem readPoly_error (b : List Nat) (e : DecodeError) (h : readPoly b = .error e) :
    e = .truncated := by
  unfold readPoly at h
  cases h1 : readN 4 b with
  | error e' =>
      simp only [h1] at h
      rw [← Except.error.inj h]
      exact readN_error _ _ _ h1
  | ok pr1 =>
      obtain ⟨eb, r1⟩ := pr1
      simp only [h1] at h
      cases h2 : readN 4 r1 with
      | error e' =>
          simp only [h2] at h
          rw [← Except.error.inj h]
          exact readN_error _ _ _ h2
      | ok pr2 =>
          obtain ⟨hb, r2⟩ := pr2
          simp only [h2] at h
          cases h3 : readN (16 * leVal eb) r2 with
          | error e' =>
              simp only [h3] at h
              rw [← Except.error.inj h]
              exact readN_error _ _ _ h3
          | ok pr3 =>
              obtain ⟨ept, r3⟩ := pr3
              simp only [h3] at h
              cases h5 : readRings (leVal hb) r3 with
              | error e' =>
                  simp only [h5] at h
                  rw [← Except.error.inj h]
                  exact readRings_error _ _ _ h5
              | ok pr4 =>
                  obtain ⟨ints, r4⟩ := pr4
                  simp only [h5] at h
                  exact Except.noConfusion h

theorem readPolys_error : ∀ (n : Nat) (b : List Nat) (e : DecodeError),
    readPolys n b = .error e → e = .truncated := by
  intro n
  induction n with
  | zero => intro b e h; simp only [readPolys] at h; exact Except.noConfusion h
  | succ m ih =>
      intro b e h
      simp only [readPolys] at h
      cases hp : readPoly b with
      | error e' =>
          simp only [hp] at h
          rw [← Except.error.inj h]
          exact readPoly_error _ _ hp
      | ok pr =>
          obtain ⟨p, r⟩ := pr
          simp only [hp] at h
          cases hps : readPolys m r with
          | error e' =>
              simp only [hps] at h
              rw [← Except.error.inj h]
              exact ih _ _ hps
          | ok pr2 =>
              obtain ⟨ps, r'⟩ := pr2
              simp only [hps] at h
              exact Except.noConfusion h

/-- Claim C9: the spec-modelled NVTL decoder fails on every buffer shorter
than the 42-byte header, reports `notNVTL` exactly when the magic or
version bytes are present and wrong, and reports `truncated` exactly when
magic/version are fine but the buffer does not contain the declared
structure. -/
theorem decode_error_taxonomy : ∀ buf : List Nat,
    (buf.length < 42 → ∃ e, decode buf = .error e) ∧
    (decode buf = .error .notNVTL ↔ badMagicVersion buf) ∧
    (decode buf = .error .truncated ↔
      (¬ badMagicVersion buf ∧ ∀ v, decode buf ≠ .ok v)) := by
  intro buf
  by_cases h4 : buf.length < 4
  · have hr : readN 4 buf = .error .truncated := by
      unfold readN
      rw [if_pos h4]
    have hdec : decode buf = .error .truncated := by
      unfold decode
      simp only [hr]
    have hnb : ¬ badMagicVersion buf := by
      rintro (⟨hlen, _⟩ | ⟨_, hlen, _⟩) <;> omega
    refine ⟨fun _ => ⟨.truncated, hdec⟩, ?_, ?_⟩
    · rw [hdec]
      constructor
      · intro h
        exact absurd (Except.error.inj h) (by simp)
      · intro h
        exact absurd h hnb
    · rw [hdec]
      exact ⟨fun _ => ⟨hnb, fun v hv => Except.noConfusion hv⟩, fun _ => rfl⟩
  · have hr : readN 4 buf = .ok (buf.take 4, buf.drop 4) := by
      unfold readN
      rw [if_neg (by omega)]
    by_cases hm : buf.take 4 = MAGIC
    · by_cases h6 : buf.length < 6
      · have hr2 : readN 2 (buf.drop 4) = .error .truncated := by
          unfold readN
          rw [if_pos (by rw [List.length_drop]; omega)]
        have hdec : decode buf = .error .truncated := by
          unfold decode
          simp only [hr]
          rw [if_neg (not_not_intro hm)]
          simp only [hr2]
        have hnb : ¬ badMagicVersion buf := by
          rintro (⟨_, hne⟩ | ⟨_, hlen, _⟩)
          · exact hne hm
          · omega
        refine ⟨fun _ => ⟨.truncated, hdec⟩, ?_, ?_⟩
        · rw [hdec]
          constructor
          · intro h
            exact absurd (Except.error.inj h) (by simp)
          · intro h
            exact absurd h hnb
        · rw [hdec]
          exact ⟨fun _ => ⟨hnb, fun v hv => Except.noConfusion hv⟩, fun _ => rfl⟩
      · have hr2 : readN 2 (buf.drop 4) = .ok ((buf.drop 4).take 2, (buf.drop 4).drop 2) := by
          unfold readN
          rw [if_neg (by rw [List.length_drop]; omega)]
        by_cases hv : leVal ((buf.drop 4).take 2) = 1
        · have hdec : decode buf =
              (match readN 4 ((buf.drop 4).drop 2) with
               | .error e => .error e
               | .ok (c, r3) =>
                   match readN 32 r3 with
                   | .error e => .error e
                   | .ok (bnds, r4) =>
                       match readPolys (leVal c) r4 with
                       | .error e => .error e
                       | .ok (ps, _) => .ok ⟨leVal c, bnds, ps⟩) := by
            unfold decode
            simp only [hr]
            rw [if_neg (not_not_intro hm)]
            simp only [hr2]
            rw [if_neg (not_not_intro hv)]
          have hnb : ¬ badMagicVersion buf := by
            rintro (⟨_, hne⟩ | ⟨_, _, hne⟩)
            · exact hne hm
            · exact hne hv
          have hshape : (∃ v, decode buf = .ok v) ∨ decode buf = .error .truncated := by
            rw [hdec]
            cases hc4 : readN 4 ((buf.drop 4).drop 2) with
            | error e =>
                right
                simp only [hc4]
                rw [readN_error _ _ _ hc4]
            | ok pr =>
                obtain ⟨c, r3⟩ := pr
                simp only [hc4]
                cases hc32 : readN 32 r3 with
                | error e =>
                    right
                    simp only [hc32]
                    rw [readN_error _ _ _ hc32]
                | ok pr2 =>
                    obtain ⟨bnds, r4⟩ := pr2
                    simp only [hc32]
                    cases hps : readPolys (leVal c) r4 with
                    | error e =>
                        right
                        simp only [hps]
                        rw [readPolys_error _ _ _ hps]
                    | ok pr3 =>
                        obtain ⟨ps, rr⟩ := pr3
                        simp only [hps]
                        exact Or.inl ⟨_, rfl⟩
          refine ⟨?_, ?_, ?_⟩
          · intro h42
            rw [hdec]
            by_cases h10 : buf.length < 10
            · have hc4 : readN 4 ((buf.drop 4).drop 2) = .error .truncated := by
                unfold readN
                rw [if_pos (by rw [List.length_drop, List.length_drop]; omega)]
              simp only [hc4]
              exact ⟨.truncated, rfl⟩
            · have hc4 : readN 4 ((buf.drop 4).drop 2)
                  = .ok (((buf.drop 4).drop 2).take 4, ((buf.drop 4).drop 2).drop 4) := by
                unfold readN
                rw [if_neg (by rw [List.length_drop, List.length_drop]; omega)]
              simp only [hc4]
              have hc32 : readN 32 (((buf.drop 4).drop 2).drop 4) = .error .truncated := by
                unfold readN
                rw [if_pos (by
                  rw [List.length_drop, List.length_drop, List.length_drop]; omega)]
              simp only [hc32]
              exact ⟨.truncated, rfl⟩
          · constructor
            · intro h
              rcases hshape with ⟨v, hvv⟩ | hTr
              · rw [hvv] at h
                exact Except.noConfusion h
              · rw [hTr] at h
                exact absurd (Except.error.inj h) (by simp)
            · intro h
              exact absurd h hnb
          · constructor
            · intro htr
              refine ⟨hnb, fun v hv => ?_⟩
              rw [hv] at htr
              exact Except.noConfusion htr
            · rintro ⟨_, hnok⟩
              rcases hshape with ⟨v, hvv⟩ | hTr
              · exact absurd hvv (hnok v)
              · exact hTr
        · have hdec : decode buf = .error .notNVTL := by
            unfold decode
            simp only [hr]
            rw [if_neg (not_not_intro hm)]
            simp only [hr2]
            rw [if_pos hv]
          have hb : badMagicVersion buf := Or.inr ⟨hm, by omega, hv⟩
          refine ⟨fun _ => ⟨.notNVTL, hdec⟩, ?_, ?_⟩
          · rw [hdec]
            exact ⟨fun _ => hb, fun _ => rfl⟩
          · rw [hdec]
            constructor
            · intro h
              exact absurd (Except.error.inj h) (by simp)
            · rintro ⟨hnb, _⟩
              exact absurd hb hnb
    · have hdec : decode buf = .error .notNVTL := by
        unfold decode
        simp only [hr]
        rw [if_pos hm]
      have hb : badMagicVersion buf := Or.inl ⟨by omega, hm⟩
      refine ⟨fun _ => ⟨.notNVTL, hdec⟩, ?_, ?_⟩
      · rw [hdec]
        exact ⟨fun _ => hb, fun _ => rfl⟩
      · rw [hdec]
        constructor
        · intro h
          exact absurd (Except.error.inj h) (by simp)
        · rintro ⟨hnb, _⟩
          exact absurd hb hnb

/-- Witness for `decode_error_taxonomy` at the empty buffer. -/
theorem decode_error_taxonomy_witness :
    ([] : List Nat).length < 42 ∧ ∃ e, decode ([] : List Nat) = .error e :=
  ⟨by simp, (decode_error_taxonomy []).1 (by simp)⟩

/-- Witness for `dp_length_antitone` at tolerances 0 and 1. -/
theorem dp_length_antitone_witness :
    (0:ℚ) ≤ 0 ∧ (0:ℚ) ≤ 1 ∧
    (douglas_peucker [((0:ℚ), (0:ℚ)), (1, 0), (0, 1), (0, 0)] 1).length ≤
      (douglas_peucker [((0:ℚ), (0:ℚ)), (1, 0), (0, 1), (0, 0)] 0).length :=
  ⟨le_refl 0, by norm_num, dp_length_antitone _ 0 1 (le_refl 0) (by norm_num)⟩

/-- Witness for `dp_subset_and_within_tolerance` on a closed triangle. -/
theorem dp_subset_and_within_tolerance_witness :
    (0:ℚ) < 1 ∧ 2 ≤ ([((0:ℚ), (0:ℚ)), (1, 0), (0, 1), (0, 0)] : List Pt).length ∧
    ((∀ x ∈ douglas_peucker [((0:ℚ), (0:ℚ)), (1, 0), (0, 1), (0, 0)] 1,
        x ∈ [((0:ℚ), (0:ℚ)), (1, 0), (0, 1), (0, 0)]) ∧
     (∀ p ∈ [((0:ℚ), (0:ℚ)), (1, 0), (0, 1), (0, 0)],
        NearPt ((1:ℚ) ^ 2) (douglas_peucker [((0:ℚ), (0:ℚ)), (1, 0), (0, 1), (0, 0)] 1) p)) :=
  ⟨by norm_num, by norm_num, dp_subset_and_within_tolerance _ 1 (by norm_num) (by norm_num)⟩

/-- Witness for `simplify_preserves_ring_closure` on a closed triangle. -/
theorem simplify_preserves_ring_closure_witness :
    ((0:ℚ) < 1) ∧
    (∀ f ∈ (⟨[⟨[], .polygon [[((0:ℚ), (0:ℚ)), (1, 0), (0, 1), (0, 0)]]⟩]⟩ :
        FeatureCollection).features, ∀ r ∈ featureRings f, ClosedRing r) ∧
    (∃ out, simplify_geojson
        ⟨[⟨[], .polygon [[((0:ℚ), (0:ℚ)), (1, 0), (0, 1), (0, 0)]]⟩]⟩ 1 = some out ∧
      ∀ f ∈ out.features, ∀ r ∈ featureRings f, ClosedRing r) := by
  have hcl : ∀ f ∈ (⟨[⟨[], .polygon [[((0:ℚ), (0:ℚ)), (1, 0), (0, 1), (0, 0)]]⟩]⟩ :
      FeatureCollection).features, ∀ r ∈ featureRings f, ClosedRing r := by
    intro f hf r hr
    rw [List.mem_singleton] at hf
    subst hf
    simp only [featureRings] at hr
    rw [List.mem_singleton] at hr
    subst hr
    exact ⟨by simp, rfl⟩
  exact ⟨by norm_num, hcl, simplify_preserves_ring_closure _ 1 (by norm_num) hcl⟩

/-- Witness for `polygon_fallback_multipolygon_drop` on a closed triangle. -/
theorem polygon_fallback_multipolygon_drop_witness :
    ((0:ℚ) < 1) ∧
    (∀ f ∈ (⟨[⟨[], .polygon [[((0:ℚ), (0:ℚ)), (1, 0), (0, 1), (0, 0)]]⟩]⟩ :
        FeatureCollection).features, ∀ r ∈ featureRings f, r ≠ []) ∧
    (∃ out, simplify_geojson
        ⟨[⟨[], .polygon [[((0:ℚ), (0:ℚ)), (1, 0), (0, 1), (0, 0)]]⟩]⟩ 1 = some out) := by
  have hne : ∀ f ∈ (⟨[⟨[], .polygon [[((0:ℚ), (0:ℚ)), (1, 0), (0, 1), (0, 0)]]⟩]⟩ :
      FeatureCollection).features, ∀ r ∈ featureRings f, r ≠ [] := by
    intro f hf r hr
    rw [List.mem_singleton] at hf
    subst hf
    simp only [featureRings] at hr
    rw [List.mem_singleton] at hr
    subst hr
    simp
  obtain ⟨⟨out, hout, _⟩, _, _⟩ :=
    polygon_fallback_multipolygon_drop
      ⟨[⟨[], .polygon [[((0:ℚ), (0:ℚ)), (1, 0), (0, 1), (0, 0)]]⟩]⟩ 1 (by norm_num) hne
  exact ⟨by norm_num, hne, out, hout⟩
